import Mathlib

/-!
# Verification of the cretonne instruction legalizer

A shallow embedding of `lib/cretonne/src/legalizer/mod.rs`: the legalization
driver `legalize_function` and the custom conditional-trap expansion
`expand_cond_trap`, together with models of the collaborator interfaces the
file consumes (cursor, control-flow graph maintainer, ABI boundary handlers,
branch-argument simplifier, target ISA).  Collaborator code is not part of
the sources, so those pieces are modelled from the specification; the two
in-scope functions are translated directly from the Rust source.
-/

namespace Cretonne

/-- Instruction identity (`ir::Inst`): an opaque index. -/
abbrev Inst := Nat

/-- Extended-basic-block identity (`ir::Ebb`). -/
abbrev Ebb := Nat

/-- SSA value identity (`ir::Value`). -/
abbrev Value := Nat

/-- An encoding recipe (`isa::Encoding`), kept opaque. -/
abbrev Encoding := Nat

/-- The opcodes the legalizer distinguishes.  `Trapz`/`Trapnz` are the two
conditional traps `expand_cond_trap` recognizes; `Brz`/`Brnz` the branches it
produces; `Trap` the unconditional trap; the remaining constructors carry the
classification predicates (`is_call`, `is_return`, `is_branch`) the driver
consults. -/
inductive Opcode
  | Trapz | Trapnz | Brz | Brnz | Trap | Jump | Call | Return
  | Other (n : Nat)
deriving DecidableEq, Repr

/-- `Opcode::is_call()`. -/
def Opcode.is_call : Opcode → Bool
  | .Call => true
  | _ => false

/-- `Opcode::is_return()`. -/
def Opcode.is_return : Opcode → Bool
  | .Return => true
  | _ => false

/-- `Opcode::is_branch()`: opcodes carrying an EBB target. -/
def Opcode.is_branch : Opcode → Bool
  | .Brz | .Brnz | .Jump => true
  | _ => false

/-- `ir::InstructionData`, restricted to the formats the legalizer consults:
the one-operand `Unary` format (carrying the conditional traps), branch
formats with an EBB destination, the nullary `Trap`, and a catch-all
`MultiAry` format for everything else. -/
inductive InstructionData
  | Unary (opcode : Opcode) (arg : Value)
  | Branch (opcode : Opcode) (arg : Value) (destination : Ebb) (args : List Value)
  | Jump (destination : Ebb) (args : List Value)
  | Trap
  | MultiAry (opcode : Opcode) (args : List Value)
deriving DecidableEq, Repr

/-- The opcode of an instruction (`InstructionData::opcode()`). -/
def InstructionData.opcode : InstructionData → Opcode
  | .Unary op _ => op
  | .Branch op _ _ _ => op
  | .Jump _ _ => .Jump
  | .Trap => .Trap
  | .MultiAry op _ => op

/-- The EBB destination of a branch instruction, `none` for non-branches
(`InstructionData::analyze_branch()` restricted to the destination). -/
def InstructionData.branch_destination : InstructionData → Option Ebb
  | .Branch _ _ d _ => some d
  | .Jump d _ => some d
  | _ => none

/-- `ir::Function`, as the legalizer uses it: the data-flow graph's
instruction table (`dfg`, indexed by instruction identity, with
`num_insts = dfg_data.length` and `num_ebbs` the EBB allocation counter),
the layout (EBBs in emission order, each with its instruction sequence), and
the encodings side table keyed by instruction identity. -/
structure Function where
  dfg_data : List InstructionData
  num_ebbs : Nat
  layout : List (Ebb × List Inst)
  encodings : List (Option Encoding)
deriving DecidableEq, Repr

/-- `func.dfg[inst]`: instruction data lookup.  An out-of-range identity
reads as the nullary `Trap` placeholder (such an access panics in the
source; every path below that consults it either rejects the shape or is
guarded by a layout hypothesis). -/
def dataAt (f : Function) (i : Inst) : InstructionData :=
  f.dfg_data.getD i .Trap

/-- `func.encodings[inst]` as a read: `none` when no encoding is recorded. -/
def encAt (f : Function) (i : Inst) : Option Encoding :=
  f.encodings.getD i none

/-- All instructions of the layout, in layout order. -/
def layoutInsts (f : Function) : List Inst :=
  (f.layout.map Prod.snd).flatten

/-- One cached node of the control-flow graph: the block's predecessors
(as basic-block/branch-instruction pairs) and successors. -/
structure CFGNode where
  predecessors : List (Ebb × Inst)
  successors : List Ebb
deriving DecidableEq, Repr

/-- `flowgraph::ControlFlowGraph`: the cached per-block edge table. -/
structure ControlFlowGraph where
  nodes : Ebb → CFGNode

/-- The successors of block `e` implied by the function: the branch targets
of the instructions of `e`, in layout order. -/
def successors_of (f : Function) (e : Ebb) : List Ebb :=
  match f.layout.find? (fun b => b.1 = e) with
  | some (_, il) => il.filterMap (fun i => (dataAt f i).branch_destination)
  | none => []

/-- The predecessors of block `e` implied by the function: every
(block, instruction) pair whose branch targets `e`. -/
def predecessors_of (f : Function) (e : Ebb) : List (Ebb × Inst) :=
  (f.layout.map (fun b =>
    (b.2.filter (fun i => (dataAt f i).branch_destination = some e)).map
      (fun i => (b.1, i)))).flatten

/-- Modelled from the spec: the CFG maintainer (`flowgraph.rs` is not among
the sources).  Per the spec it "recomputes predecessor/successor edges for a
given block": the cached entry of exactly the given block is replaced by the
edges the function currently implies, every other cached entry is left
untouched. -/
def ControlFlowGraph.recompute_ebb (cfg : ControlFlowGraph) (f : Function)
    (e : Ebb) : ControlFlowGraph :=
  ⟨fun x => if x = e then ⟨predecessors_of f e, successors_of f e⟩ else cfg.nodes x⟩

/-! ## Layout splitting used by `expand_cond_trap`

`expand_cond_trap` replaces the trap in place, inserts an unconditional
`trap` right after it, and splits the remainder of the block into a freshly
allocated EBB spliced immediately after the original block (the cursor
`next_inst` / `ins().trap()` / `insert_ebb` sequence of the source). -/

/-- Split an instruction list at the first occurrence of `i`:
`splitAtInst il i = some (pre, tail)` with `il = pre ++ i :: tail`. -/
def splitAtInst : List Inst → Inst → Option (List Inst × List Inst)
  | [], _ => none
  | j :: rest, i =>
    if j = i then some ([], rest)
    else match splitAtInst rest i with
      | some (pre, tail) => some (j :: pre, tail)
      | none => none

/-- Locate the first block of the layout containing `i` and split it there:
`splitLayoutAt lay i = some (L1, e, pre, tail, L2)` with
`lay = L1 ++ (e, pre ++ i :: tail) :: L2` and `i` not in `L1` nor `pre`. -/
def splitLayoutAt :
    List (Ebb × List Inst) → Inst →
      Option (List (Ebb × List Inst) × Ebb × List Inst × List Inst ×
        List (Ebb × List Inst))
  | [], _ => none
  | (e, il) :: rest, i =>
    match splitAtInst il i with
    | some (pre, tail) => some ([], e, pre, tail, rest)
    | none =>
      match splitLayoutAt rest i with
      | some (L1, e', pre, tail, L2) => some ((e, il) :: L1, e', pre, tail, L2)
      | none => none

/-- `expand_cond_trap` from the source.  Parses the instruction: a `Unary`
`Trapz`/`Trapnz` is rewritten, anything else panics (`none`).  The rewrite
allocates a new EBB, replaces the trap in place by the negated conditional
branch to it (`Trapz` becomes `brnz`, `Trapnz` becomes `brz`), inserts an
unconditional `trap` right after, splits the rest of the block into the new
EBB placed immediately after the old block, and recomputes the CFG for the
old block and the new one.  A conditional trap whose identity is not in the
layout also panics (`pp_ebb`), again `none`. -/
def expand_cond_trap (inst : Inst) (func : Function) (cfg : ControlFlowGraph) :
    Option (Function × ControlFlowGraph) :=
  match dataAt func inst with
  | .Unary op arg =>
    match op with
    | .Trapz => expand_cond_trap_go true arg inst func cfg
    | .Trapnz => expand_cond_trap_go false arg inst func cfg
    | _ => none
  | _ => none
where
  /-- The rewrite proper; `trapz` records which conditional trap was parsed. -/
  expand_cond_trap_go (trapz : Bool) (arg : Value) (inst : Inst)
      (func : Function) (cfg : ControlFlowGraph) :
      Option (Function × ControlFlowGraph) :=
    match splitLayoutAt func.layout inst with
    | none => none
    | some (L1, old_ebb, pre, tail, L2) =>
      let new_ebb : Ebb := func.num_ebbs
      let branch_data : InstructionData :=
        if trapz then .Branch .Brnz arg new_ebb [] else .Branch .Brz arg new_ebb []
      let trap_inst : Inst := func.dfg_data.length
      let f2 : Function :=
        { dfg_data := func.dfg_data.set inst branch_data ++ [.Trap]
          num_ebbs := func.num_ebbs + 1
          layout := L1 ++ (old_ebb, pre ++ [inst, trap_inst]) :: (new_ebb, tail) :: L2
          encodings := func.encodings }
      let cfg1 := cfg.recompute_ebb f2 old_ebb
      let cfg2 := cfg1.recompute_ebb f2 new_ebb
      some (f2, cfg2)


/-! ## Characterizing the expansion -/

/-- `splitAtInst` finds the split when `i` is not in the prefix. -/
theorem splitAtInst_eq (i : Inst) (tail : List Inst) :
    ∀ pre : List Inst, i ∉ pre → splitAtInst (pre ++ i :: tail) i = some (pre, tail) := by
  intro pre
  induction pre with
  | nil => intro _; simp [splitAtInst]
  | cons j rest ih =>
    intro h
    have hji : ¬ j = i := by
      intro hji; exact h (by simp [hji])
    have : i ∉ rest := fun hm => h (List.mem_cons_of_mem _ hm)
    simp [splitAtInst, hji, ih this]

/-- `splitAtInst` fails exactly when `i` does not occur. -/
theorem splitAtInst_none (i : Inst) :
    ∀ il : List Inst, i ∉ il → splitAtInst il i = none := by
  intro il
  induction il with
  | nil => intro _; simp [splitAtInst]
  | cons j rest ih =>
    intro h
    have hji : ¬ j = i := by
      intro hji; exact h (by simp [hji])
    have : i ∉ rest := fun hm => h (List.mem_cons_of_mem _ hm)
    simp [splitAtInst, hji, ih this]

/-- `splitLayoutAt` finds the block split when `i` occurs first at the
indicated place. -/
theorem splitLayoutAt_eq (i : Inst) (b : Ebb) (pre tail : List Inst)
    (L2 : List (Ebb × List Inst)) :
    ∀ L1 : List (Ebb × List Inst), (∀ bl ∈ L1, i ∉ bl.2) → i ∉ pre →
      splitLayoutAt (L1 ++ (b, pre ++ i :: tail) :: L2) i =
        some (L1, b, pre, tail, L2) := by
  intro L1
  induction L1 with
  | nil =>
    intro _ hpre
    simp [splitLayoutAt, splitAtInst_eq i tail pre hpre]
  | cons bl rest ih =>
    intro hL1 hpre
    have h1 : i ∉ bl.2 := hL1 bl (by simp)
    have h2 : ∀ x ∈ rest, i ∉ x.2 := fun x hx => hL1 x (by simp [hx])
    simp [splitLayoutAt, splitAtInst_none i bl.2 h1, ih h2 hpre]

/-- The function produced by `expand_cond_trap` at the indicated layout
split: the trap's slot now holds the conditional branch to the new EBB, the
fresh unconditional trap (identity `f.dfg_data.length`) follows it, the
remainder of the block moved to the new EBB (identity `f.num_ebbs`) spliced
right after, and the encodings table is untouched. -/
def expandedFunc (f : Function) (t : Inst) (brOp : Opcode) (v : Value)
    (L1 : List (Ebb × List Inst)) (b : Ebb) (pre tail : List Inst)
    (L2 : List (Ebb × List Inst)) : Function :=
  { dfg_data := f.dfg_data.set t (.Branch brOp v f.num_ebbs []) ++ [.Trap]
    num_ebbs := f.num_ebbs + 1
    layout := L1 ++ (b, pre ++ [t, f.dfg_data.length]) :: (f.num_ebbs, tail) :: L2
    encodings := f.encodings }

/-- Full characterization of `expand_cond_trap` on a conditional trap `t`
located in block `b` after prefix `pre`: it succeeds and returns
`expandedFunc` together with the CFG recomputed at the old block and then at
the new block. -/
theorem expand_cond_trap_split
    (f : Function) (cfg : ControlFlowGraph) (t : Inst) (v : Value)
    (op brOp : Opcode) (L1 L2 : List (Ebb × List Inst)) (b : Ebb)
    (pre tail : List Inst)
    (hlay : f.layout = L1 ++ (b, pre ++ t :: tail) :: L2)
    (hL1 : ∀ bl ∈ L1, t ∉ bl.2) (hpre : t ∉ pre)
    (hdata : dataAt f t = .Unary op v)
    (hop : (op = .Trapz ∧ brOp = .Brnz) ∨ (op = .Trapnz ∧ brOp = .Brz)) :
    expand_cond_trap t f cfg =
      some (expandedFunc f t brOp v L1 b pre tail L2,
        ((cfg.recompute_ebb (expandedFunc f t brOp v L1 b pre tail L2) b).recompute_ebb
          (expandedFunc f t brOp v L1 b pre tail L2) f.num_ebbs)) := by
  have hsplit := splitLayoutAt_eq t b pre tail L2 L1 hL1 hpre
  rcases hop with ⟨h1, h2⟩ | ⟨h1, h2⟩ <;> subst h1 <;> subst h2 <;>
    simp [expand_cond_trap, hdata, expand_cond_trap.expand_cond_trap_go, hlay,
      hsplit, expandedFunc]

/-- `splitAtInst` soundness: a successful split reassembles the list. -/
theorem splitAtInst_sound (i : Inst) :
    ∀ il pre tail, splitAtInst il i = some (pre, tail) → il = pre ++ i :: tail := by
  intro il
  induction il with
  | nil => intro pre tail h; simp [splitAtInst] at h
  | cons j rest ih =>
    intro pre tail h
    by_cases hji : j = i
    · simp [splitAtInst, hji] at h
      simp [hji, h.1.symm, h.2.symm]
    · simp only [splitAtInst, if_neg hji] at h
      cases hsp : splitAtInst rest i with
      | none => rw [hsp] at h; simp at h
      | some pr =>
        rw [hsp] at h
        simp at h
        rcases h with ⟨h1, h2⟩
        have := ih pr.1 pr.2 (by rw [hsp])
        rw [← h1, ← h2]
        simp [this]

/-- `splitLayoutAt` soundness: a successful split reassembles the layout. -/
theorem splitLayoutAt_sound (i : Inst) :
    ∀ lay L1 e pre tail L2, splitLayoutAt lay i = some (L1, e, pre, tail, L2) →
      lay = L1 ++ (e, pre ++ i :: tail) :: L2 := by
  intro lay
  induction lay with
  | nil => intro L1 e pre tail L2 h; simp [splitLayoutAt] at h
  | cons bl rest ih =>
    intro L1 e pre tail L2 h
    obtain ⟨be, bil⟩ := bl
    simp only [splitLayoutAt] at h
    cases hsp : splitAtInst bil i with
    | some pr =>
      rw [hsp] at h
      obtain ⟨pre', tail'⟩ := pr
      obtain ⟨h1, h2, h3, h4, h5⟩ : [] = L1 ∧ be = e ∧ pre' = pre ∧ tail' = tail ∧ rest = L2 := by
        simpa using h
      subst h1; subst h2; subst h3; subst h4; subst h5
      simp [splitAtInst_sound i bil pre' tail' hsp]
    | none =>
      rw [hsp] at h
      cases hsl : splitLayoutAt rest i with
      | none => rw [hsl] at h; simp at h
      | some q =>
        rw [hsl] at h
        obtain ⟨q1, q2, q3, q4, q5⟩ := q
        obtain ⟨h1, h2, h3, h4, h5⟩ :
            (be, bil) :: q1 = L1 ∧ q2 = e ∧ q3 = pre ∧ q4 = tail ∧ q5 = L2 := by
          simpa using h
        subst h1; subst h2; subst h3; subst h4; subst h5
        simp [ih q1 q2 q3 q4 q5 hsl]

/-- An instruction whose data parses as a real format is inside the
instruction table. -/
theorem dataAt_lt_length (f : Function) (t : Inst)
    (h : dataAt f t ≠ .Trap) : t < f.dfg_data.length := by
  by_contra hge
  exact h (by simp [dataAt, List.getElem?_eq_none (Nat.le_of_not_lt hge)])

/-- After expansion, the original trap's slot holds the conditional branch. -/
theorem dataAt_expanded_self (f : Function) (t : Inst) (brOp : Opcode)
    (v : Value) (L1 : List (Ebb × List Inst)) (b : Ebb) (pre tail : List Inst)
    (L2 : List (Ebb × List Inst)) (ht : t < f.dfg_data.length) :
    dataAt (expandedFunc f t brOp v L1 b pre tail L2) t =
      .Branch brOp v f.num_ebbs [] := by
  have hlen : t < (f.dfg_data.set t (.Branch brOp v f.num_ebbs [])).length := by
    simpa using ht
  simp [dataAt, expandedFunc, List.getElem?_append_left hlen,
    List.getElem?_set_self ht]

/-- After expansion, the fresh instruction's slot holds the unconditional
trap. -/
theorem dataAt_expanded_new (f : Function) (t : Inst) (brOp : Opcode)
    (v : Value) (L1 : List (Ebb × List Inst)) (b : Ebb) (pre tail : List Inst)
    (L2 : List (Ebb × List Inst)) :
    dataAt (expandedFunc f t brOp v L1 b pre tail L2) f.dfg_data.length =
      .Trap := by
  simp [dataAt, expandedFunc]

/-- Expansion leaves the data of every other instruction identity unchanged
(an identity beyond the table reads as the placeholder on both sides). -/
theorem dataAt_expanded_other (f : Function) (t : Inst) (brOp : Opcode)
    (v : Value) (L1 : List (Ebb × List Inst)) (b : Ebb) (pre tail : List Inst)
    (L2 : List (Ebb × List Inst)) (j : Inst) (hj : j ≠ t) :
    dataAt (expandedFunc f t brOp v L1 b pre tail L2) j = dataAt f j := by
  rcases Nat.lt_trichotomy j f.dfg_data.length with h | h | h
  · have hlen : j < (f.dfg_data.set t (.Branch brOp v f.num_ebbs [])).length := by
      simpa using h
    simp [dataAt, expandedFunc, List.getElem?_append_left hlen,
      List.getElem?_set_ne (Ne.symm hj)]
  · subst h
    rw [dataAt_expanded_new]
    simp [dataAt, List.getElem?_eq_none (Nat.le_refl _)]
  · have h1 : f.dfg_data.length ≤ j := Nat.le_of_lt h
    have h2 : (f.dfg_data.set t (.Branch brOp v f.num_ebbs []) ++
        [InstructionData.Trap]).length ≤ j := by
      simpa using h
    simp [dataAt, expandedFunc, List.getElem?_eq_none h2,
      List.getElem?_eq_none h1]

/-- Inversion: a successful `expand_cond_trap` determines the parsed shape,
the layout split, and the resulting function and CFG. -/
theorem expand_cond_trap_inv (t : Inst) (f : Function) (cfg : ControlFlowGraph)
    (f' : Function) (c' : ControlFlowGraph)
    (hrun : expand_cond_trap t f cfg = some (f', c')) :
    ∃ op v L1 b pre tail L2,
      dataAt f t = .Unary op v ∧
      splitLayoutAt f.layout t = some (L1, b, pre, tail, L2) ∧
      ((op = .Trapz ∧ f' = expandedFunc f t .Brnz v L1 b pre tail L2) ∨
        (op = .Trapnz ∧ f' = expandedFunc f t .Brz v L1 b pre tail L2)) ∧
      c' = (cfg.recompute_ebb f' b).recompute_ebb f' f.num_ebbs := by
  cases hdata : dataAt f t with
  | Unary op v =>
    cases op <;> simp only [expand_cond_trap, hdata] at hrun <;> try exact absurd hrun (by simp)
    case Trapz =>
      unfold expand_cond_trap.expand_cond_trap_go at hrun
      cases hsp : splitLayoutAt f.layout t with
      | none => rw [hsp] at hrun; simp at hrun
      | some q =>
        obtain ⟨L1, b, pre, tail, L2⟩ := q
        rw [hsp] at hrun
        simp only [Option.some.inj, Prod.mk.injEq] at hrun
        obtain ⟨h1, h2⟩ := hrun
        refine ⟨.Trapz, v, L1, b, pre, tail, L2, rfl, rfl, .inl ⟨rfl, ?_⟩, ?_⟩
        · simp [expandedFunc]
        · simp [expandedFunc]
    case Trapnz =>
      unfold expand_cond_trap.expand_cond_trap_go at hrun
      cases hsp : splitLayoutAt f.layout t with
      | none => rw [hsp] at hrun; simp at hrun
      | some q =>
        obtain ⟨L1, b, pre, tail, L2⟩ := q
        rw [hsp] at hrun
        simp only [Option.some.inj, Prod.mk.injEq] at hrun
        obtain ⟨h1, h2⟩ := hrun
        refine ⟨.Trapnz, v, L1, b, pre, tail, L2, rfl, rfl, .inr ⟨rfl, ?_⟩, ?_⟩
        · simp [expandedFunc]
        · simp [expandedFunc]
  | Branch op v d args => simp [expand_cond_trap, hdata] at hrun
  | Jump d args => simp [expand_cond_trap, hdata] at hrun
  | Trap => simp [expand_cond_trap, hdata] at hrun
  | MultiAry op args => simp [expand_cond_trap, hdata] at hrun

/-- The CFG produced by `expand_cond_trap`: the input CFG recomputed at the
old block and then at the new block. -/
def expandedCfg (cfg : ControlFlowGraph) (f2 : Function) (b new : Ebb) :
    ControlFlowGraph :=
  (cfg.recompute_ebb f2 b).recompute_ebb f2 new

/-- Does this instruction data parse as a one-operand conditional trap? -/
def condTrapShape : InstructionData → Bool
  | .Unary .Trapz _ => true
  | .Unary .Trapnz _ => true
  | _ => false

/-- A sample function: block 0 holds a conditional branch, a `trapnz`, and
two straight-line instructions; block 1 is empty. -/
def sampleFunc : Function :=
  { dfg_data := [.Branch .Brnz 7 1 [], .Unary .Trapnz 3, .MultiAry (.Other 0) [],
      .MultiAry (.Other 1) []]
    num_ebbs := 2
    layout := [(0, [0, 1, 2, 3]), (1, [])]
    encodings := [none, none, none, none] }

/-- An empty CFG cache to feed the samples. -/
def sampleCfg : ControlFlowGraph := ⟨fun _ => ⟨[], []⟩⟩

/-- A sample function whose single block is `trapnz v3` followed by exactly
two straight-line instructions. -/
def sampleFunc2 : Function :=
  { dfg_data := [.Unary .Trapnz 3, .MultiAry (.Other 0) [], .MultiAry (.Other 1) []]
    num_ebbs := 1
    layout := [(0, [0, 1, 2])]
    encodings := [none, none, none] }

/-- The successor list recorded for block `e` in the CFG of an expansion
result (`[]` when the expansion panicked). -/
def expandSuccsOf (r : Option (Function × ControlFlowGraph)) (e : Ebb) :
    List Ebb :=
  match r with
  | some (_, c) => (c.nodes e).successors
  | none => []

/-- **C5.** `expand_cond_trap` replaces the trap with the logical negation of
its condition: a `Trapz` instruction with operand `arg` becomes a `brnz` to
the new block, and a `Trapnz` instruction becomes a `brz` to the new block. -/
theorem expand_cond_trap_negates_condition (t : Inst) (f : Function)
    (cfg : ControlFlowGraph) (f' : Function) (c' : ControlFlowGraph) (a : Value)
    (hrun : expand_cond_trap t f cfg = some (f', c')) :
    (dataAt f t = .Unary .Trapz a → dataAt f' t = .Branch .Brnz a f.num_ebbs []) ∧
    (dataAt f t = .Unary .Trapnz a → dataAt f' t = .Branch .Brz a f.num_ebbs []) := by
  obtain ⟨op, v, L1, b, pre, tail, L2, hdata, hsp, hcase, hcfg⟩ :=
    expand_cond_trap_inv t f cfg f' c' hrun
  have ht : t < f.dfg_data.length := by
    apply dataAt_lt_length
    rw [hdata]
    simp
  constructor
  · intro hz
    rw [hdata] at hz
    obtain ⟨hop, hv⟩ : op = .Trapz ∧ v = a := by
      injection hz with h1 h2
      exact ⟨h1, h2⟩
    rcases hcase with ⟨_, hf⟩ | ⟨hne, _⟩
    · rw [hf, ← hv]
      exact dataAt_expanded_self f t .Brnz v L1 b pre tail L2 ht
    · rw [hop] at hne; exact absurd hne (by simp)
  · intro hz
    rw [hdata] at hz
    obtain ⟨hop, hv⟩ : op = .Trapnz ∧ v = a := by
      injection hz with h1 h2
      exact ⟨h1, h2⟩
    rcases hcase with ⟨hne, _⟩ | ⟨_, hf⟩
    · rw [hop] at hne; exact absurd hne (by simp)
    · rw [hf, ← hv]
      exact dataAt_expanded_self f t .Brz v L1 b pre tail L2 ht

/-- Witness for C5: on the sample function, the `trapnz v3` at identity 1 is
replaced in place by `brz v3` targeting the freshly allocated block 2. -/
theorem expand_cond_trap_negates_condition_witness :
    dataAt (expandedFunc sampleFunc 1 .Brz 3 [] 0 [0] [2, 3] [(1, [])]) 1 =
      .Branch .Brz 3 2 [] :=
  (expand_cond_trap_negates_condition 1 sampleFunc sampleCfg
    (expandedFunc sampleFunc 1 .Brz 3 [] 0 [0] [2, 3] [(1, [])])
    (expandedCfg sampleCfg
      (expandedFunc sampleFunc 1 .Brz 3 [] 0 [0] [2, 3] [(1, [])]) 0 2)
    3 rfl).2 rfl

/-- **C8.** Any instruction passed to `expand_cond_trap` that is not a
one-operand `Trapz` or `Trapnz` hits the `panic!` arms of the match: the
call is fatal (`none`) and no rewrite of the function or CFG is produced. -/
theorem expand_cond_trap_rejects_non_cond_trap (t : Inst) (f : Function)
    (cfg : ControlFlowGraph) (h : condTrapShape (dataAt f t) = false) :
    expand_cond_trap t f cfg = none := by
  cases hdata : dataAt f t with
  | Unary op v =>
    rw [hdata] at h
    cases op <;> simp_all [condTrapShape, expand_cond_trap, hdata]
  | Branch op v d args => simp [expand_cond_trap, hdata]
  | Jump d args => simp [expand_cond_trap, hdata]
  | Trap => simp [expand_cond_trap, hdata]
  | MultiAry op args => simp [expand_cond_trap, hdata]

/-- Witness for C8: instruction 0 of the sample function is a conditional
branch, not a conditional trap, and the expansion panics on it. -/
theorem expand_cond_trap_rejects_non_cond_trap_witness :
    expand_cond_trap 0 sampleFunc sampleCfg = none :=
  expand_cond_trap_rejects_non_cond_trap 0 sampleFunc sampleCfg (by decide)

/-- **C9.** The expansion rewrites the conditional trap under the same
instruction identity: the slot of the original trap now holds the produced
conditional branch, every instruction identity of the old layout is still in
the new layout, and the encodings side table (keyed by instruction identity)
is untouched, so it still addresses the replacement at the original slot. -/
theorem expand_cond_trap_in_place (t : Inst) (f : Function)
    (cfg : ControlFlowGraph) (f' : Function) (c' : ControlFlowGraph)
    (hrun : expand_cond_trap t f cfg = some (f', c')) :
    (∃ brOp a, (brOp = .Brnz ∨ brOp = .Brz) ∧
      dataAt f' t = .Branch brOp a f.num_ebbs []) ∧
    (∀ j ∈ layoutInsts f, j ∈ layoutInsts f') ∧
    f'.encodings = f.encodings ∧
    encAt f' t = encAt f t := by
  obtain ⟨op, v, L1, b, pre, tail, L2, hdata, hsp, hcase, hcfg⟩ :=
    expand_cond_trap_inv t f cfg f' c' hrun
  have ht : t < f.dfg_data.length := by
    apply dataAt_lt_length
    rw [hdata]
    simp
  have hlay := splitLayoutAt_sound t f.layout L1 b pre tail L2 hsp
  have hf : ∃ brOp, (brOp = Opcode.Brnz ∨ brOp = Opcode.Brz) ∧
      f' = expandedFunc f t brOp v L1 b pre tail L2 := by
    rcases hcase with ⟨_, hf⟩ | ⟨_, hf⟩
    · exact ⟨.Brnz, .inl rfl, hf⟩
    · exact ⟨.Brz, .inr rfl, hf⟩
  obtain ⟨brOp, hbr, hf⟩ := hf
  refine ⟨⟨brOp, v, hbr, ?_⟩, ?_, ?_, ?_⟩
  · rw [hf]
    exact dataAt_expanded_self f t brOp v L1 b pre tail L2 ht
  · intro j hj
    rw [hf]
    rw [layoutInsts, hlay] at hj
    simp only [layoutInsts, expandedFunc, List.map_append, List.flatten_append,
      List.map_cons, List.flatten_cons, List.mem_append, List.mem_cons,
      List.mem_singleton] at hj ⊢
    tauto
  · rw [hf]; rfl
  · rw [hf]; rfl

/-- Witness for C9: on the sample function the branch sits at the trap's
identity 1, identity 3 survives into the new layout, and the encodings table
is untouched. -/
theorem expand_cond_trap_in_place_witness :
    (∃ brOp a, (brOp = Opcode.Brnz ∨ brOp = Opcode.Brz) ∧
      dataAt (expandedFunc sampleFunc 1 .Brz 3 [] 0 [0] [2, 3] [(1, [])]) 1 =
        .Branch brOp a 2 []) ∧
    3 ∈ layoutInsts (expandedFunc sampleFunc 1 .Brz 3 [] 0 [0] [2, 3] [(1, [])]) ∧
    (expandedFunc sampleFunc 1 .Brz 3 [] 0 [0] [2, 3] [(1, [])]).encodings =
      sampleFunc.encodings ∧
    encAt (expandedFunc sampleFunc 1 .Brz 3 [] 0 [0] [2, 3] [(1, [])]) 1 =
      encAt sampleFunc 1 :=
  have h := expand_cond_trap_in_place 1 sampleFunc sampleCfg
    (expandedFunc sampleFunc 1 .Brz 3 [] 0 [0] [2, 3] [(1, [])])
    (expandedCfg sampleCfg
      (expandedFunc sampleFunc 1 .Brz 3 [] 0 [0] [2, 3] [(1, [])]) 0 2) rfl
  ⟨h.1, h.2.1 3 (by decide), h.2.2.1, h.2.2.2⟩

/-- Counterexample for C2 as stated: `sampleFunc`'s block 0 ends in
`trapnz v3` (identity 1) followed by the two straight-line instructions 2
and 3, but it also starts with a conditional branch to block 1.  After
`expand_cond_trap` the successor set recorded for block 0 is `[1, 2]` — it
contains the new block 2 but is *not* equal to `{B'} = {2}`. -/
theorem expand_cond_trap_succ_set_counterexample :
    dataAt sampleFunc 1 = .Unary .Trapnz 3 ∧
    (expand_cond_trap 1 sampleFunc sampleCfg).isSome = true ∧
    expandSuccsOf (expand_cond_trap 1 sampleFunc sampleCfg) 0 = [1, 2] ∧
    ([1, 2] : List Ebb) ≠ [2] := by
  refine ⟨rfl, rfl, ?_, by decide⟩
  rfl

/-- After expansion, the successors implied for the old block are exactly
the new block, provided no instruction left before the trap is a branch. -/
theorem successors_of_expanded (f : Function) (t : Inst) (brOp : Opcode)
    (v : Value) (L1 : List (Ebb × List Inst)) (b : Ebb) (pre tail : List Inst)
    (L2 : List (Ebb × List Inst)) (ht : t < f.dfg_data.length)
    (hbL1 : b ∉ L1.map Prod.fst) (hpre : t ∉ pre)
    (hprebr : ∀ j ∈ pre, (dataAt f j).branch_destination = none) :
    successors_of (expandedFunc f t brOp v L1 b pre tail L2) b = [f.num_ebbs] := by
  have hfind1 : L1.find? (fun bl => bl.1 = b) = none := by
    rw [List.find?_eq_none]
    intro x hx
    simp only [decide_eq_true_eq]
    intro hxb
    exact hbL1 (by rw [← hxb]; exact List.mem_map_of_mem _ hx)
  have hfind2 :
      ((b, pre ++ [t, f.dfg_data.length]) :: (f.num_ebbs, tail) :: L2).find?
        (fun bl => bl.1 = b) = some (b, pre ++ [t, f.dfg_data.length]) :=
    List.find?_cons_of_pos _ (by simp)
  have hlayF : (expandedFunc f t brOp v L1 b pre tail L2).layout =
      L1 ++ (b, pre ++ [t, f.dfg_data.length]) :: (f.num_ebbs, tail) :: L2 := rfl
  simp only [successors_of, hlayF, List.find?_append, hfind1, hfind2,
    Option.none_or]
  rw [List.filterMap_append]
  have hnil : pre.filterMap
      (fun i => (dataAt (expandedFunc f t brOp v L1 b pre tail L2) i).branch_destination) =
      [] := by
    rw [List.filterMap_eq_nil_iff]
    intro j hj
    rw [dataAt_expanded_other f t brOp v L1 b pre tail L2 j
      (fun he => hpre (he ▸ hj))]
    exact hprebr j hj
  rw [hnil]
  simp [List.filterMap, dataAt_expanded_self f t brOp v L1 b pre tail L2 ht,
    dataAt_expanded_new f t brOp v L1 b pre tail L2,
    InstructionData.branch_destination]

/-- After expansion, the old block (via the rewritten branch) is among the
predecessors recorded for the new block. -/
theorem predecessors_of_expanded_mem (f : Function) (t : Inst) (brOp : Opcode)
    (v : Value) (L1 : List (Ebb × List Inst)) (b : Ebb) (pre tail : List Inst)
    (L2 : List (Ebb × List Inst)) (ht : t < f.dfg_data.length) :
    (b, t) ∈ predecessors_of (expandedFunc f t brOp v L1 b pre tail L2)
      f.num_ebbs := by
  have hlayF : (expandedFunc f t brOp v L1 b pre tail L2).layout =
      L1 ++ (b, pre ++ [t, f.dfg_data.length]) :: (f.num_ebbs, tail) :: L2 := rfl
  rw [predecessors_of, hlayF, List.mem_flatten]
  refine ⟨((pre ++ [t, f.dfg_data.length]).filter (fun i =>
      (dataAt (expandedFunc f t brOp v L1 b pre tail L2) i).branch_destination =
        some f.num_ebbs)).map (fun i => (b, i)), ?_, ?_⟩
  · rw [List.mem_map]
    exact ⟨(b, pre ++ [t, f.dfg_data.length]), by simp, by simp⟩
  · apply List.mem_map_of_mem
    rw [List.mem_filter]
    refine ⟨by simp, ?_⟩
    simp [dataAt_expanded_self f t brOp v L1 b pre tail L2 ht,
      InstructionData.branch_destination]

/-- **C2 (amended).** For a block ending in `trapnz v0` (identity `t`)
followed by the straight-line instructions `i1, i2`, where no *other*
instruction of the block is a branch, expansion leaves the block ending in
`brz v0 -> B'` followed by an unconditional `trap`, creates the new block
`B' = f.num_ebbs` holding exactly `i1, i2` in order, records `{B'}` as the
old block's successor set, and records the old block among `B'`'s
predecessors.  (Without the no-other-branch proviso the successor set can
properly contain `{B'}`, as the counterexample shows.) -/
theorem expand_cond_trap_scenario (f : Function) (cfg : ControlFlowGraph)
    (t i1 i2 : Inst) (v0 : Value) (L1 L2 : List (Ebb × List Inst)) (b : Ebb)
    (pre : List Inst)
    (hlay : f.layout = L1 ++ (b, pre ++ t :: [i1, i2]) :: L2)
    (hL1 : ∀ bl ∈ L1, t ∉ bl.2) (hpre : t ∉ pre)
    (hbL1 : b ∉ L1.map Prod.fst) (hb : b ≠ f.num_ebbs)
    (hdata : dataAt f t = .Unary .Trapnz v0)
    (hprebr : ∀ j ∈ pre, (dataAt f j).branch_destination = none) :
    expand_cond_trap t f cfg =
      some (expandedFunc f t .Brz v0 L1 b pre [i1, i2] L2,
        expandedCfg cfg (expandedFunc f t .Brz v0 L1 b pre [i1, i2] L2) b
          f.num_ebbs) ∧
    (expandedFunc f t .Brz v0 L1 b pre [i1, i2] L2).layout =
      L1 ++ (b, pre ++ [t, f.dfg_data.length]) :: (f.num_ebbs, [i1, i2]) :: L2 ∧
    dataAt (expandedFunc f t .Brz v0 L1 b pre [i1, i2] L2) t =
      .Branch .Brz v0 f.num_ebbs [] ∧
    dataAt (expandedFunc f t .Brz v0 L1 b pre [i1, i2] L2) f.dfg_data.length =
      .Trap ∧
    ((expandedCfg cfg (expandedFunc f t .Brz v0 L1 b pre [i1, i2] L2) b
        f.num_ebbs).nodes b).successors = [f.num_ebbs] ∧
    (b, t) ∈ ((expandedCfg cfg (expandedFunc f t .Brz v0 L1 b pre [i1, i2] L2) b
        f.num_ebbs).nodes f.num_ebbs).predecessors := by
  have ht : t < f.dfg_data.length := by
    apply dataAt_lt_length
    rw [hdata]
    simp
  have hrun := expand_cond_trap_split f cfg t v0 .Trapnz .Brz L1 L2 b pre
    [i1, i2] hlay hL1 hpre hdata (.inr ⟨rfl, rfl⟩)
  refine ⟨hrun, rfl,
    dataAt_expanded_self f t .Brz v0 L1 b pre [i1, i2] L2 ht,
    dataAt_expanded_new f t .Brz v0 L1 b pre [i1, i2] L2, ?_, ?_⟩
  · have hsucc := successors_of_expanded f t .Brz v0 L1 b pre [i1, i2] L2 ht
      hbL1 hpre hprebr
    simp [expandedCfg, ControlFlowGraph.recompute_ebb, hb, hsucc]
  · have hpredm := predecessors_of_expanded_mem f t .Brz v0 L1 b pre [i1, i2]
      L2 ht
    simp [expandedCfg, ControlFlowGraph.recompute_ebb, hpredm]

/-- Witness for the amended C2 on `sampleFunc2`: its single block is
`trapnz v3; I1; I2` with no other branch, and the conclusion evaluates as
stated with `B' = 1`. -/
theorem expand_cond_trap_scenario_witness :
    expand_cond_trap 0 sampleFunc2 sampleCfg =
      some (expandedFunc sampleFunc2 0 .Brz 3 [] 0 [] [1, 2] [],
        expandedCfg sampleCfg (expandedFunc sampleFunc2 0 .Brz 3 [] 0 [] [1, 2] [])
          0 1) ∧
    (expandedFunc sampleFunc2 0 .Brz 3 [] 0 [] [1, 2] []).layout =
      [] ++ (0, [] ++ [0, 3]) :: (1, [1, 2]) :: [] ∧
    dataAt (expandedFunc sampleFunc2 0 .Brz 3 [] 0 [] [1, 2] []) 0 =
      .Branch .Brz 3 1 [] ∧
    dataAt (expandedFunc sampleFunc2 0 .Brz 3 [] 0 [] [1, 2] []) 3 = .Trap ∧
    ((expandedCfg sampleCfg (expandedFunc sampleFunc2 0 .Brz 3 [] 0 [] [1, 2] [])
        0 1).nodes 0).successors = [1] ∧
    (0, 0) ∈ ((expandedCfg sampleCfg
        (expandedFunc sampleFunc2 0 .Brz 3 [] 0 [] [1, 2] []) 0 1).nodes
        1).predecessors :=
  expand_cond_trap_scenario sampleFunc2 sampleCfg 0 1 2 3 [] [] 0 []
    rfl (by simp) (by simp) (by simp) (by decide) rfl (by simp)

/-- **C10.** `expand_cond_trap` recomputes CFG edges for exactly two blocks:
the entries of the block `b` that held the trap and of the new block
`f.num_ebbs` are replaced by the edges the rewritten function implies, and
the cached entry of every other block is left unchanged.  (The CFG
maintainer is modelled from the spec, which recomputes the edges of exactly
the requested block.) -/
theorem expand_cond_trap_recomputes_two_blocks (f : Function)
    (cfg : ControlFlowGraph) (t : Inst) (v : Value) (op brOp : Opcode)
    (L1 L2 : List (Ebb × List Inst)) (b : Ebb) (pre tail : List Inst)
    (hlay : f.layout = L1 ++ (b, pre ++ t :: tail) :: L2)
    (hL1 : ∀ bl ∈ L1, t ∉ bl.2) (hpre : t ∉ pre)
    (hdata : dataAt f t = .Unary op v)
    (hop : (op = .Trapz ∧ brOp = .Brnz) ∨ (op = .Trapnz ∧ brOp = .Brz))
    (hb : b ≠ f.num_ebbs) :
    expand_cond_trap t f cfg =
      some (expandedFunc f t brOp v L1 b pre tail L2,
        expandedCfg cfg (expandedFunc f t brOp v L1 b pre tail L2) b
          f.num_ebbs) ∧
    (expandedCfg cfg (expandedFunc f t brOp v L1 b pre tail L2) b
        f.num_ebbs).nodes b =
      ⟨predecessors_of (expandedFunc f t brOp v L1 b pre tail L2) b,
        successors_of (expandedFunc f t brOp v L1 b pre tail L2) b⟩ ∧
    (expandedCfg cfg (expandedFunc f t brOp v L1 b pre tail L2) b
        f.num_ebbs).nodes f.num_ebbs =
      ⟨predecessors_of (expandedFunc f t brOp v L1 b pre tail L2) f.num_ebbs,
        successors_of (expandedFunc f t brOp v L1 b pre tail L2) f.num_ebbs⟩ ∧
    (∀ x : Ebb, x ≠ b → x ≠ f.num_ebbs →
      (expandedCfg cfg (expandedFunc f t brOp v L1 b pre tail L2) b
        f.num_ebbs).nodes x = cfg.nodes x) := by
  refine ⟨expand_cond_trap_split f cfg t v op brOp L1 L2 b pre tail hlay hL1
    hpre hdata hop, ?_, ?_, ?_⟩
  · simp [expandedCfg, ControlFlowGraph.recompute_ebb, hb]
  · simp [expandedCfg, ControlFlowGraph.recompute_ebb]
  · intro x hxb hxn
    simp [expandedCfg, ControlFlowGraph.recompute_ebb, hxb, hxn]

/-- Witness for C10 on `sampleFunc2`: the expansion result is as computed,
blocks 0 and 1 carry the recomputed entries, and an unrelated block such as
7 keeps its cached entry. -/
theorem expand_cond_trap_recomputes_two_blocks_witness :
    expand_cond_trap 0 sampleFunc2 sampleCfg =
      some (expandedFunc sampleFunc2 0 .Brz 3 [] 0 [] [1, 2] [],
        expandedCfg sampleCfg (expandedFunc sampleFunc2 0 .Brz 3 [] 0 [] [1, 2] [])
          0 1) ∧
    (expandedCfg sampleCfg (expandedFunc sampleFunc2 0 .Brz 3 [] 0 [] [1, 2] [])
        0 1).nodes 0 =
      ⟨predecessors_of (expandedFunc sampleFunc2 0 .Brz 3 [] 0 [] [1, 2] []) 0,
        successors_of (expandedFunc sampleFunc2 0 .Brz 3 [] 0 [] [1, 2] []) 0⟩ ∧
    (expandedCfg sampleCfg (expandedFunc sampleFunc2 0 .Brz 3 [] 0 [] [1, 2] [])
        0 1).nodes 1 =
      ⟨predecessors_of (expandedFunc sampleFunc2 0 .Brz 3 [] 0 [] [1, 2] []) 1,
        successors_of (expandedFunc sampleFunc2 0 .Brz 3 [] 0 [] [1, 2] []) 1⟩ ∧
    (expandedCfg sampleCfg (expandedFunc sampleFunc2 0 .Brz 3 [] 0 [] [1, 2] [])
        0 1).nodes 7 = sampleCfg.nodes 7 :=
  have h := expand_cond_trap_recomputes_two_blocks sampleFunc2 sampleCfg 0 3
    .Trapnz .Brz [] [] 0 [] [1, 2] rfl (by simp) (by simp) rfl
    (.inr ⟨rfl, rfl⟩) (by decide)
  ⟨h.1, h.2.1, h.2.2.1, h.2.2.2 7 (by decide) (by decide)⟩

/-! ## The legalization driver -/

/-- Modelled from the spec: cursor positions (`cursor.rs` is not among the
sources).  Per the spec a position names "which block, which instruction, or
'before first instruction of a block'"; `After` marks the bottom of a block,
`Nowhere` the detached state a fresh cursor starts in. -/
inductive CursorPosition
  | Nowhere
  | Before (ebb : Ebb)
  | At (inst : Inst)
  | After (ebb : Ebb)
deriving DecidableEq, Repr

/-- The tail of a block after the first occurrence of `j`. -/
def tailAfter : List Inst → Inst → Option (List Inst)
  | [], _ => none
  | x :: rest, j => if x = j then some rest else tailAfter rest j

/-- The block of the layout holding instruction `j` (`layout.inst_ebb`),
paired with the in-block tail after `j`. -/
def findInstBlock (f : Function) (j : Inst) : Option (Ebb × List Inst) :=
  go f.layout
where
  /-- Walk the blocks looking for `j`. -/
  go : List (Ebb × List Inst) → Option (Ebb × List Inst)
    | [] => none
    | (e, il) :: rest =>
      match tailAfter il j with
      | some tl => some (e, tl)
      | none => go rest

/-- The index of block `e` in the layout. -/
def ebbIndex (f : Function) (e : Ebb) : Option Nat :=
  f.layout.findIdx? (fun bl => bl.1 = e)

/-- Modelled from the spec: `FuncCursor::next_inst()` (`cursor.rs` is not
among the sources).  From `Before e` it moves to the first instruction of
`e` (or to `After e` when the block is empty); from `At j` to the
instruction after `j` in `j`'s block (or to `After` that block); from
`Nowhere` and `After` it yields nothing.  A dangling `At` reference — its
instruction no longer in the layout, a panic in the real cursor — yields
nothing and detaches the cursor. -/
def next_inst (f : Function) : CursorPosition → Option Inst × CursorPosition
  | .Nowhere => (none, .Nowhere)
  | .After e => (none, .After e)
  | .Before e =>
    match f.layout.find? (fun bl => bl.1 = e) with
    | some (_, i :: _) => (some i, .At i)
    | some (_, []) => (none, .After e)
    | none => (none, .After e)
  | .At j =>
    match findInstBlock f j with
    | some (_, i :: _) => (some i, .At i)
    | some (e, []) => (none, .After e)
    | none => (none, .Nowhere)

/-- The block a position refers to (`Cursor::current_ebb()`). -/
def current_ebb (f : Function) : CursorPosition → Option Ebb
  | .Nowhere => none
  | .Before e => some e
  | .After e => some e
  | .At j => (findInstBlock f j).map Prod.fst

/-- Modelled from the spec: `FuncCursor::next_ebb()` (`cursor.rs` is not
among the sources).  Moves to (before) the block after the current one in
the live layout — the entry block when there is no current block — and
yields nothing past the last block.  A dangling block reference (a panic in
the real cursor) restarts from the entry. -/
def next_ebb (f : Function) (p : CursorPosition) :
    Option Ebb × CursorPosition :=
  match current_ebb f p with
  | none =>
    match f.layout with
    | [] => (none, .Nowhere)
    | (e, _) :: _ => (some e, .Before e)
  | some e =>
    match ebbIndex f e with
    | some k =>
      match f.layout.get? (k + 1) with
      | some (e2, _) => (some e2, .Before e2)
      | none => (none, .Nowhere)
    | none =>
      match f.layout with
      | [] => (none, .Nowhere)
      | (e0, _) :: _ => (some e0, .Before e0)

/-- `Result<Encoding, Legalize>`: the target's verdict on an instruction —
either a legal encoding or the legalization action to invoke.  An action
takes the instruction identity, function and CFG, mutates them, and reports
whether it changed anything. -/
inductive EncodeResult
  | ok (enc : Encoding)
  | err (action : Inst → Function → ControlFlowGraph →
      Bool × Function × ControlFlowGraph)

/-- Is the verdict "illegal"? -/
def EncodeResult.isErr : EncodeResult → Bool
  | .ok _ => false
  | .err _ => true

/-- The collaborators `legalize_function` consumes, all modelled from the
spec since their code (`isa`, `boundary.rs`, `split.rs`, `flowgraph.rs`) is
not among the sources: the target's legality query (a pure function of the
instruction data, spec §4.3), the two ABI boundary handlers, the
branch-argument simplifier (which runs on the DFG only), signature
legalization, the CFG validity check behind the `debug_assert!`, and
whether debug assertions are compiled in. -/
structure LegalizeEnv where
  encode : InstructionData → EncodeResult
  handle_call_abi : Inst → Function → ControlFlowGraph →
    Bool × Function × ControlFlowGraph
  handle_return_abi : Inst → Function → ControlFlowGraph →
    Bool × Function × ControlFlowGraph
  simplify_branch_arguments : List InstructionData → Inst → List InstructionData
  legalize_signatures : Function → Function
  cfg_is_valid : ControlFlowGraph → Function → Bool
  debug_assertions : Bool

/-- The state of the driver loop: the function and CFG being mutated in
place, the cursor position, and the rewind target `prev_pos`. -/
structure DriverState where
  func : Function
  cfg : ControlFlowGraph
  pos : CursorPosition
  prev_pos : CursorPosition

/-- Record an encoding (`pos.func.encodings[inst] = encoding`); the table
grows when the instruction was created after the initial sizing. -/
def setEnc (f : Function) (i : Inst) (e : Encoding) : Function :=
  if i < f.encodings.length then
    { f with encodings := f.encodings.set i (some e) }
  else
    let grown := f.encodings ++ List.replicate (i + 1 - f.encodings.length) none
    { f with encodings := grown.set i (some e) }

/-- The branch-argument simplification step: for a branch opcode the
simplifier runs on the DFG (`split::simplify_branch_arguments(&mut
pos.func.dfg, inst)`); it never rewinds by itself. -/
def branchSimplified (env : LegalizeEnv) (s : DriverState) (inst : Inst)
    (opcode : Opcode) : DriverState :=
  if opcode.is_branch then
    { s with func := { s.func with
        dfg_data := env.simplify_branch_arguments s.func.dfg_data inst } }
  else s

/-- The legality check, run on the possibly-simplified instruction: a legal
verdict records the encoding and finalizes `prev_pos` at the instruction; an
illegal verdict invokes the carried action — a reported change rewinds the
cursor to `prev_pos`, no change falls through and also finalizes
`prev_pos`. -/
def encodeStage (env : LegalizeEnv) (s : DriverState) (inst : Inst)
    (opcode : Opcode) : DriverState :=
  let s1 := branchSimplified env s inst opcode
  match env.encode (dataAt s1.func inst) with
  | .ok enc => { s1 with func := setEnc s1.func inst enc, prev_pos := .At inst }
  | .err action =>
    match action inst s1.func s1.cfg with
    | (true, f2, c2) => { s1 with func := f2, cfg := c2, pos := s1.prev_pos }
    | (false, f2, c2) => { s1 with func := f2, cfg := c2, prev_pos := .At inst }

/-- The return-boundary check that precedes the legality check, with the
rewind-on-change rule. -/
def returnStage (env : LegalizeEnv) (s : DriverState) (inst : Inst)
    (opcode : Opcode) : DriverState :=
  if opcode.is_return then
    match env.handle_return_abi inst s.func s.cfg with
    | (true, f2, c2) => { s with func := f2, cfg := c2, pos := s.prev_pos }
    | (false, f2, c2) =>
      encodeStage env { s with func := f2, cfg := c2 } inst opcode
  else encodeStage env s inst opcode

/-- One iteration of the driver's inner loop on the fetched instruction
(the cursor stands at `At inst`): the opcode is read once; the call
boundary handler runs first with the rewind-on-change rule, then the return
handler, the branch simplifier and the legality check. -/
def driver_step (env : LegalizeEnv) (s : DriverState) (inst : Inst) :
    DriverState :=
  let opcode := (dataAt s.func inst).opcode
  if opcode.is_call then
    match env.handle_call_abi inst s.func s.cfg with
    | (true, f2, c2) => { s with func := f2, cfg := c2, pos := s.prev_pos }
    | (false, f2, c2) =>
      returnStage env { s with func := f2, cfg := c2 } inst opcode
  else returnStage env s inst opcode

/-- The driver's nested loops, fuelled: `next_inst` drives the inner loop
and `driver_step` processes each fetched instruction; when a block is
exhausted, `next_ebb` re-reads the live layout (so blocks appended or split
in mid-pass are visited) and `prev_pos` restarts at the top of the next
block.  The run completes when no block remains. -/
def legalize_loop (env : LegalizeEnv) : Nat → DriverState → Option DriverState
  | 0, _ => none
  | Nat.succ fuel, s =>
    match next_inst s.func s.pos with
    | (some inst, pos1) =>
      legalize_loop env fuel (driver_step env { s with pos := pos1 } inst)
    | (none, pos1) =>
      match next_ebb s.func pos1 with
      | (some _, pos2) =>
        legalize_loop env fuel { s with pos := pos2, prev_pos := pos2 }
      | (none, pos2) => some { s with pos := pos2 }

/-- The outcome of a fuelled `legalize_function` run: completed, out of
fuel, or aborted on a violated internal invariant (`debug_assert!`). -/
inductive DriverOutcome
  | ok (func : Function) (cfg : ControlFlowGraph)
  | fuel_out
  | aborted

/-- Did the run abort on the assertion? -/
def DriverOutcome.isAborted : DriverOutcome → Bool
  | .aborted => true
  | _ => false

/-- Did the run complete? -/
def DriverOutcome.isOk : DriverOutcome → Bool
  | .ok _ _ => true
  | _ => false

/-- The recorded encoding of `i` in a completed run (`none` otherwise or
when none is recorded). -/
def DriverOutcome.encodingAt : DriverOutcome → Inst → Option Encoding
  | .ok f _, i => encAt f i
  | _, _ => none

/-- `legalize_function` from the source: assert the input CFG valid
(`debug_assert!(cfg.is_valid())`, active only when debug assertions are
compiled in), legalize signatures against the target's calling convention,
size the encodings map to the current instruction count, then run the
driver loop from a fresh cursor. -/
def legalize_function (env : LegalizeEnv) (fuel : Nat) (func : Function)
    (cfg : ControlFlowGraph) : DriverOutcome :=
  if env.debug_assertions && !(env.cfg_is_valid cfg func) then .aborted
  else
    let func1 := env.legalize_signatures func
    let func2 : Function := { func1 with
      encodings :=
        (func1.encodings ++ List.replicate func1.dfg_data.length none).take
          func1.dfg_data.length }
    match legalize_loop env fuel ⟨func2, cfg, .Nowhere, .Nowhere⟩ with
    | some s => .ok s.func s.cfg
    | none => .fuel_out

/-- Branch simplification only touches the DFG: cursor fields and CFG are
unchanged. -/
theorem branchSimplified_fields (env : LegalizeEnv) (s : DriverState)
    (inst : Inst) (opcode : Opcode) :
    (branchSimplified env s inst opcode).pos = s.pos ∧
    (branchSimplified env s inst opcode).prev_pos = s.prev_pos ∧
    (branchSimplified env s inst opcode).cfg = s.cfg := by
  unfold branchSimplified
  split <;> exact ⟨rfl, rfl, rfl⟩

/-- After the legality check the driver either finalized the instruction
(`prev_pos := At inst`, cursor untouched) or rewound (`pos := prev_pos`,
`prev_pos` untouched). -/
theorem encodeStage_prev_cases (env : LegalizeEnv) (s : DriverState)
    (inst : Inst) (opcode : Opcode) :
    ((encodeStage env s inst opcode).prev_pos = .At inst ∧
      (encodeStage env s inst opcode).pos = s.pos) ∨
    ((encodeStage env s inst opcode).prev_pos = s.prev_pos ∧
      (encodeStage env s inst opcode).pos = s.prev_pos) := by
  obtain ⟨h1, h2, _⟩ := branchSimplified_fields env s inst opcode
  simp only [encodeStage]
  cases henc : env.encode (dataAt (branchSimplified env s inst opcode).func inst) with
  | ok enc => exact .inl ⟨rfl, h1⟩
  | err action =>
    dsimp only
    rcases haction : action inst (branchSimplified env s inst opcode).func
        (branchSimplified env s inst opcode).cfg with ⟨b, f2, c2⟩
    cases b
    · exact .inl ⟨rfl, h1⟩
    · exact .inr ⟨h2, h2⟩

/-- Same dichotomy one stage out: the return boundary handler. -/
theorem returnStage_prev_cases (env : LegalizeEnv) (s : DriverState)
    (inst : Inst) (opcode : Opcode) :
    ((returnStage env s inst opcode).prev_pos = .At inst ∧
      (returnStage env s inst opcode).pos = s.pos) ∨
    ((returnStage env s inst opcode).prev_pos = s.prev_pos ∧
      (returnStage env s inst opcode).pos = s.prev_pos) := by
  simp only [returnStage]
  by_cases hr : opcode.is_return = true
  · rw [if_pos hr]
    rcases hret : env.handle_return_abi inst s.func s.cfg with ⟨b, f2, c2⟩
    cases b
    · exact encodeStage_prev_cases env ⟨f2, c2, s.pos, s.prev_pos⟩ inst opcode
    · exact .inr ⟨rfl, rfl⟩
  · rw [if_neg hr]
    exact encodeStage_prev_cases env s inst opcode

/-- **C3 (amended).** In one driver iteration, either the instruction was
finalized — `prev_pos` advances to the instruction and the cursor does not
move — or a mutator reported a change and the driver rewound — the cursor
returns to `prev_pos`, which does not advance.  For a plain (non-call,
non-return, non-branch) instruction the finalizing cases are characterized
exactly: a legal verdict advances `prev_pos`, an illegal verdict whose
action reports a change rewinds without advancing it, and an illegal
verdict whose action reports *no* change also advances `prev_pos` — the
point on which the claim as stated fails. -/
theorem driver_step_prev_pos (env : LegalizeEnv) (s : DriverState)
    (inst : Inst) :
    (((driver_step env s inst).prev_pos = .At inst ∧
        (driver_step env s inst).pos = s.pos) ∨
      ((driver_step env s inst).prev_pos = s.prev_pos ∧
        (driver_step env s inst).pos = s.prev_pos)) ∧
    ((dataAt s.func inst).opcode.is_call = false →
     (dataAt s.func inst).opcode.is_return = false →
     (dataAt s.func inst).opcode.is_branch = false →
      (∀ enc, env.encode (dataAt s.func inst) = .ok enc →
        (driver_step env s inst).prev_pos = .At inst) ∧
      (∀ action, env.encode (dataAt s.func inst) = .err action →
        ((action inst s.func s.cfg).1 = true →
          (driver_step env s inst).prev_pos = s.prev_pos ∧
          (driver_step env s inst).pos = s.prev_pos) ∧
        ((action inst s.func s.cfg).1 = false →
          (driver_step env s inst).prev_pos = .At inst))) := by
  constructor
  · simp only [driver_step]
    by_cases hcall : (dataAt s.func inst).opcode.is_call = true
    · rw [if_pos hcall]
      rcases hc2 : env.handle_call_abi inst s.func s.cfg with ⟨b, f2, c2⟩
      cases b
      · exact returnStage_prev_cases env ⟨f2, c2, s.pos, s.prev_pos⟩ inst
          ((dataAt s.func inst).opcode)
      · exact .inr ⟨rfl, rfl⟩
    · rw [if_neg hcall]
      exact returnStage_prev_cases env s inst ((dataAt s.func inst).opcode)
  · intro hc hr hb
    have hstep : driver_step env s inst =
        encodeStage env s inst ((dataAt s.func inst).opcode) := by
      unfold driver_step returnStage
      simp [hc, hr]
    have hsimp : branchSimplified env s inst ((dataAt s.func inst).opcode) = s := by
      unfold branchSimplified
      simp [hb]
    constructor
    · intro enc henc
      rw [hstep]
      simp only [encodeStage]
      rw [hsimp, henc]
    · intro action haction
      constructor
      · intro hch
        rcases hact : action inst s.func s.cfg with ⟨b, f2, c2⟩
        rw [hact] at hch
        simp at hch
        subst hch
        rw [hstep]
        simp only [encodeStage]
        rw [hsimp, haction]
        dsimp only
        rw [hact]
        exact ⟨rfl, rfl⟩
      · intro hch
        rcases hact : action inst s.func s.cfg with ⟨b, f2, c2⟩
        rw [hact] at hch
        simp at hch
        subst hch
        rw [hstep]
        simp only [encodeStage]
        rw [hsimp, haction]
        dsimp only
        rw [hact]

/-- A legalization action that reports no change and leaves everything
untouched. -/
def noChangeAction : Inst → Function → ControlFlowGraph →
    Bool × Function × ControlFlowGraph :=
  fun _ f c => (false, f, c)

/-- Identity boundary handlers reporting no change. -/
def idHandler : Inst → Function → ControlFlowGraph →
    Bool × Function × ControlFlowGraph :=
  fun _ f c => (false, f, c)

/-- A target for which every instruction is legal; the collaborators are
all no-ops; debug assertions are compiled in. -/
def envAllLegal : LegalizeEnv :=
  { encode := fun _ => .ok 5
    handle_call_abi := idHandler
    handle_return_abi := idHandler
    simplify_branch_arguments := fun dfg _ => dfg
    legalize_signatures := fun f => f
    cfg_is_valid := fun _ _ => true
    debug_assertions := true }

/-- A target for which every instruction is illegal and the carried action
is a no-op reporting no change. -/
def envIllegalNoChange : LegalizeEnv :=
  { envAllLegal with encode := fun _ => .err noChangeAction }

/-- Counterexample for C3 as stated: the instruction at identity 0 of
`sampleFunc2` is judged illegal (`isErr`), its action reports no change, and
the driver iteration still advances `prev_pos` from `Before 0` to `At 0` —
the assignment after the `match` in the source runs on the illegal
no-change path too. -/
theorem driver_step_prev_pos_counterexample :
    (envIllegalNoChange.encode (dataAt sampleFunc2 0)).isErr = true ∧
    (driver_step envIllegalNoChange
      ⟨sampleFunc2, sampleCfg, .At 0, .Before 0⟩ 0).prev_pos = .At 0 ∧
    (CursorPosition.Before 0 : CursorPosition) ≠ .At 0 :=
  ⟨rfl, rfl, by decide⟩

/-- Witness for the amended C3: for the always-legal target, processing
instruction 0 of `sampleFunc2` advances `prev_pos` to `At 0`; for the
illegal-no-change target the rewind branch keeps both positions at
`prev_pos`; and the no-change fall-through advances `prev_pos`. -/
theorem driver_step_prev_pos_witness :
    (driver_step envAllLegal
      ⟨sampleFunc2, sampleCfg, .At 0, .Before 0⟩ 0).prev_pos = .At 0 ∧
    (driver_step envIllegalNoChange
      ⟨sampleFunc2, sampleCfg, .At 0, .Before 0⟩ 0).prev_pos = .At 0 :=
  ⟨(driver_step_prev_pos envAllLegal
      ⟨sampleFunc2, sampleCfg, .At 0, .Before 0⟩ 0).2 rfl rfl rfl |>.1 5 rfl,
    ((driver_step_prev_pos envIllegalNoChange
      ⟨sampleFunc2, sampleCfg, .At 0, .Before 0⟩ 0).2 rfl rfl rfl |>.2
      noChangeAction rfl).2 rfl⟩

/-- A release-build environment (debug assertions compiled out) whose CFG
validity check rejects every input. -/
def envReleaseInvalid : LegalizeEnv :=
  { envAllLegal with cfg_is_valid := fun _ _ => false, debug_assertions := false }

/-- The same environment with debug assertions compiled in. -/
def envDebugInvalid : LegalizeEnv :=
  { envReleaseInvalid with debug_assertions := true }

/-- Counterexample for C7 as stated: the CFG validity precondition is
checked with `debug_assert!`, which is compiled out in release builds — with
debug assertions disabled, a call whose supplied CFG is invalid does not
fail fatally; the pass proceeds and completes. -/
theorem legalize_function_release_counterexample :
    envReleaseInvalid.cfg_is_valid sampleCfg sampleFunc2 = false ∧
    (legalize_function envReleaseInvalid 20 sampleFunc2 sampleCfg).isAborted
      = false ∧
    (legalize_function envReleaseInvalid 20 sampleFunc2 sampleCfg).isOk
      = true :=
  ⟨rfl, rfl, rfl⟩

/-- **C7 (amended).** When debug assertions are compiled in, a call to
`legalize_function` whose supplied CFG is not valid for the supplied
function aborts on the `debug_assert!` — fatally, before any mutation, and
not through a recoverable error value.  (In release builds the check is
compiled out and the pass proceeds, as the counterexample shows.) -/
theorem legalize_function_asserts_valid_cfg (env : LegalizeEnv) (fuel : Nat)
    (func : Function) (cfg : ControlFlowGraph)
    (hdbg : env.debug_assertions = true)
    (hinv : env.cfg_is_valid cfg func = false) :
    legalize_function env fuel func cfg = .aborted := by
  simp [legalize_function, hdbg, hinv]

/-- Witness for the amended C7: with assertions compiled in, the invalid
CFG aborts the pass on the sample input. -/
theorem legalize_function_asserts_valid_cfg_witness :
    legalize_function envDebugInvalid 20 sampleFunc2 sampleCfg = .aborted :=
  legalize_function_asserts_valid_cfg envDebugInvalid 20 sampleFunc2 sampleCfg
    rfl rfl

/-! ## Cursor/layout lemmas -/

/-- Well-formed layout bookkeeping: block identities and instruction
identities each occur at most once. -/
def NodupLayout (f : Function) : Prop :=
  (f.layout.map Prod.fst).Nodup ∧ (layoutInsts f).Nodup

/-- `tailAfter` finds the tail when `j` is not in the prefix. -/
theorem tailAfter_eq (j : Inst) (rest : List Inst) :
    ∀ pre : List Inst, j ∉ pre → tailAfter (pre ++ j :: rest) j = some rest := by
  intro pre
  induction pre with
  | nil => intro _; simp [tailAfter]
  | cons x xs ih =>
    intro h
    have hxj : ¬ x = j := by
      intro hx; exact h (by simp [hx])
    have : j ∉ xs := fun hm => h (List.mem_cons_of_mem _ hm)
    simp [tailAfter, hxj, ih this]

/-- `tailAfter` fails exactly when `j` does not occur. -/
theorem tailAfter_none (j : Inst) :
    ∀ il : List Inst, j ∉ il → tailAfter il j = none := by
  intro il
  induction il with
  | nil => intro _; simp [tailAfter]
  | cons x xs ih =>
    intro h
    have hxj : ¬ x = j := by
      intro hx; exact h (by simp [hx])
    have : j ∉ xs := fun hm => h (List.mem_cons_of_mem _ hm)
    simp [tailAfter, hxj, ih this]

/-- `findInstBlock` locates the indicated occurrence when `j` appears
nowhere earlier. -/
theorem findInstBlock_eq (f : Function) (j : Inst) (L1 L2 : List (Ebb × List Inst))
    (e : Ebb) (pre0 rest : List Inst)
    (hlay : f.layout = L1 ++ (e, pre0 ++ j :: rest) :: L2)
    (hL1 : ∀ bl ∈ L1, j ∉ bl.2) (hpre : j ∉ pre0) :
    findInstBlock f j = some (e, rest) := by
  unfold findInstBlock
  rw [hlay]
  clear hlay
  induction L1 with
  | nil => simp [findInstBlock.go, tailAfter_eq j rest pre0 hpre]
  | cons bl bls ih =>
    have h1 : j ∉ bl.2 := hL1 bl (by simp)
    have h2 : ∀ x ∈ bls, j ∉ x.2 := fun x hx => hL1 x (by simp [hx])
    obtain ⟨be, bil⟩ := bl
    simp only [List.cons_append, findInstBlock.go, tailAfter_none j bil h1]
    exact ih h2

/-- `find?` locates a block by identity when no earlier block carries it. -/
theorem find_block_eq (f : Function) (e : Ebb) (il : List Inst)
    (L1 L2 : List (Ebb × List Inst))
    (hlay : f.layout = L1 ++ (e, il) :: L2) (hL1 : e ∉ L1.map Prod.fst) :
    f.layout.find? (fun bl => bl.1 = e) = some (e, il) := by
  rw [hlay, List.find?_append]
  have h1 : L1.find? (fun bl => bl.1 = e) = none := by
    rw [List.find?_eq_none]
    intro x hx
    simp only [decide_eq_true_eq]
    intro hxb
    exact hL1 (by rw [← hxb]; exact List.mem_map_of_mem _ hx)
  rw [h1]
  simp [List.find?_cons_of_pos]

/-- In a layout with no duplicate instruction identities, an instruction of
the distinguished block occurs in no earlier block and not earlier in its
own block. -/
theorem nodup_inst_not_before (f : Function) (L1 L2 : List (Ebb × List Inst))
    (e : Ebb) (pre0 : List Inst) (j : Inst) (rest : List Inst)
    (hlay : f.layout = L1 ++ (e, pre0 ++ j :: rest) :: L2)
    (h : (layoutInsts f).Nodup) :
    (∀ bl ∈ L1, j ∉ bl.2) ∧ j ∉ pre0 := by
  rw [layoutInsts, hlay] at h
  simp only [List.map_append, List.flatten_append, List.map_cons,
    List.flatten_cons] at h
  rw [List.nodup_append] at h
  obtain ⟨_, h2, hdisj⟩ := h
  rw [List.nodup_append] at h2
  constructor
  · intro bl hbl hjbl
    have hj1 : j ∈ (List.map Prod.snd L1).flatten := by
      rw [List.mem_flatten]
      exact ⟨bl.2, List.mem_map_of_mem _ hbl, hjbl⟩
    have hj2 : j ∈ pre0 ++ j :: rest ++ (List.map Prod.snd L2).flatten := by
      simp
    exact hdisj hj1 hj2
  · intro hjpre
    obtain ⟨hp, hr, hd⟩ := h2
    rw [List.nodup_append] at hp
    obtain ⟨hp1, _, hpd⟩ := hp
    exact hpd hjpre (by simp)

/-- In a layout with no duplicate block identities, the identity of the
distinguished block does not occur earlier. -/
theorem nodup_ebb_not_before (f : Function) (L1 L2 : List (Ebb × List Inst))
    (e : Ebb) (il : List Inst)
    (hlay : f.layout = L1 ++ (e, il) :: L2)
    (h : (f.layout.map Prod.fst).Nodup) : e ∉ L1.map Prod.fst := by
  rw [hlay] at h
  simp only [List.map_append, List.map_cons] at h
  rw [List.nodup_append] at h
  obtain ⟨_, _, hdisj⟩ := h
  intro hmem
  exact hdisj hmem (by simp)

/-- **C4.** Rewind correctness: suppose the driver processed `inst` (cursor
at `At inst`) and the iteration rewound (`pos` returned to `prev_pos`, the
position just before `inst`: either the bottom of the scanned prefix of the
block, or the block's top when `inst` was its first instruction).  If the
mutated function keeps that prefix — its layout is `L1`, then block `e`
holding `pre` followed by `inst'`, with no duplicate identities — then the
very next instruction the driver examines is `inst'`, the instruction now
occupying the position immediately after the pre-edit predecessor of
`inst`; nothing the action inserted or left behind is skipped. -/
theorem driver_rewind_examines_successor (env : LegalizeEnv) (s : DriverState)
    (inst inst' : Inst) (L1 L2' : List (Ebb × List Inst)) (e : Ebb)
    (pre tl' : List Inst)
    (hrew : (driver_step env { s with pos := .At inst } inst).pos = s.prev_pos)
    (hdec : (driver_step env { s with pos := .At inst } inst).func.layout =
      L1 ++ (e, pre ++ inst' :: tl') :: L2')
    (hnodup : NodupLayout (driver_step env { s with pos := .At inst } inst).func)
    (hpos : (s.prev_pos = .Before e ∧ pre = []) ∨
      (∃ j pre0, s.prev_pos = .At j ∧ pre = pre0 ++ [j])) :
    next_inst (driver_step env { s with pos := .At inst } inst).func
      (driver_step env { s with pos := .At inst } inst).pos =
      (some inst', .At inst') := by
  obtain ⟨hids, hinsts⟩ := hnodup
  rw [hrew]
  rcases hpos with ⟨hp, hpre⟩ | ⟨j, pre0, hp, hpre⟩
  · subst hpre
    set F := (driver_step env { s with pos := .At inst } inst).func with hF
    rw [hp]
    have hfind := find_block_eq F e (inst' :: tl') L1 L2' (by simpa using hdec)
      (nodup_ebb_not_before F L1 L2' e (inst' :: tl') (by simpa using hdec) hids)
    simp only [next_inst]
    rw [hfind]
  · subst hpre
    set F := (driver_step env { s with pos := .At inst } inst).func with hF
    rw [hp]
    have hlay2 : F.layout = L1 ++ (e, pre0 ++ j :: (inst' :: tl')) :: L2' := by
      simpa using hdec
    obtain ⟨hnb, hnp⟩ := nodup_inst_not_before F L1 L2' e pre0 j (inst' :: tl')
      hlay2 hinsts
    have hfind := findInstBlock_eq F j L1 L2' e pre0 (inst' :: tl') hlay2 hnb hnp
    simp only [next_inst]
    rw [hfind]

/-- `expand_cond_trap` packaged as a legalization action, the way the
generated legalizer dispatches it: it always reports a change. -/
def wrapExpandAction : Inst → Function → ControlFlowGraph →
    Bool × Function × ControlFlowGraph :=
  fun i f c =>
    match expand_cond_trap i f c with
    | some (f2, c2) => (true, f2, c2)
    | none => (true, f, c)

/-- A target for which conditional traps are illegal (legalized through
`expand_cond_trap`) and everything else is legal. -/
def envCondTrap : LegalizeEnv :=
  { envAllLegal with encode := fun d =>
      match d with
      | .Unary .Trapnz _ => .err wrapExpandAction
      | .Unary .Trapz _ => .err wrapExpandAction
      | _ => .ok 7 }

/-- Witness for C4: expanding the `trapnz` at the head of `sampleFunc2`'s
block rewinds to the block top, and the next instruction examined is the
replacement branch now occupying the first slot. -/
theorem driver_rewind_examines_successor_witness :
    next_inst (driver_step envCondTrap
        ⟨sampleFunc2, sampleCfg, .At 0, .Before 0⟩ 0).func
      (driver_step envCondTrap
        ⟨sampleFunc2, sampleCfg, .At 0, .Before 0⟩ 0).pos =
      (some 0, .At 0) :=
  driver_rewind_examines_successor envCondTrap
    ⟨sampleFunc2, sampleCfg, .Before 0, .Before 0⟩ 0 0 [] [(1, [1, 2])] 0 []
    [3] rfl rfl ⟨by decide, by decide⟩ (.inl ⟨rfl, rfl⟩)

/-! ## The scanned prefix of a cursor position -/

/-- The instructions of a run of blocks, in order. -/
def joinInsts (L : List (Ebb × List Inst)) : List Inst :=
  (L.map Prod.snd).flatten

/-- Instructions scanned when standing before block `e`: everything in
blocks strictly before `e`'s first occurrence. -/
def scanBefore (e : Ebb) : List (Ebb × List Inst) → List Inst
  | [] => []
  | (e', il) :: rest => if e' = e then [] else il ++ scanBefore e rest

/-- Instructions scanned when standing at the bottom of block `e`. -/
def scanAfter (e : Ebb) : List (Ebb × List Inst) → List Inst
  | [] => []
  | (e', il) :: rest => if e' = e then il else il ++ scanAfter e rest

/-- Instructions scanned when standing at instruction `j`, inclusive. -/
def scanAt (j : Inst) : List (Ebb × List Inst) → List Inst
  | [] => []
  | (_, il) :: rest =>
    match splitAtInst il j with
    | some (pre, _) => pre ++ [j]
    | none => il ++ scanAt j rest

/-- The instructions the cursor has passed, inclusive of the current one. -/
def scanned (f : Function) : CursorPosition → List Inst
  | .Nowhere => []
  | .Before e => scanBefore e f.layout
  | .After e => scanAfter e f.layout
  | .At j => scanAt j f.layout

/-- `scanBefore` under an explicit decomposition. -/
theorem scanBefore_eq (e : Ebb) (il : List Inst) (L2 : List (Ebb × List Inst)) :
    ∀ L1, (∀ bl ∈ L1, bl.1 ≠ e) →
      scanBefore e (L1 ++ (e, il) :: L2) = joinInsts L1 := by
  intro L1
  induction L1 with
  | nil => intro _; simp [scanBefore, joinInsts]
  | cons bl bls ih =>
    intro h
    obtain ⟨be, bil⟩ := bl
    have h1 : be ≠ e := h (be, bil) (by simp)
    have h2 : ∀ x ∈ bls, x.1 ≠ e := fun x hx => h x (by simp [hx])
    simp [scanBefore, h1, ih h2, joinInsts]

/-- `scanAfter` under an explicit decomposition. -/
theorem scanAfter_eq (e : Ebb) (il : List Inst) (L2 : List (Ebb × List Inst)) :
    ∀ L1, (∀ bl ∈ L1, bl.1 ≠ e) →
      scanAfter e (L1 ++ (e, il) :: L2) = joinInsts L1 ++ il := by
  intro L1
  induction L1 with
  | nil => intro _; simp [scanAfter, joinInsts]
  | cons bl bls ih =>
    intro h
    obtain ⟨be, bil⟩ := bl
    have h1 : be ≠ e := h (be, bil) (by simp)
    have h2 : ∀ x ∈ bls, x.1 ≠ e := fun x hx => h x (by simp [hx])
    simp [scanAfter, h1, ih h2, joinInsts]

/-- `scanAt` under an explicit decomposition. -/
theorem scanAt_eq (j : Inst) (e : Ebb) (pre tl : List Inst)
    (L2 : List (Ebb × List Inst)) :
    ∀ L1, (∀ bl ∈ L1, j ∉ bl.2) → j ∉ pre →
      scanAt j (L1 ++ (e, pre ++ j :: tl) :: L2) = joinInsts L1 ++ pre ++ [j] := by
  intro L1
  induction L1 with
  | nil =>
    intro _ hpre
    simp [scanAt, splitAtInst_eq j tl pre hpre, joinInsts]
  | cons bl bls ih =>
    intro h hpre
    obtain ⟨be, bil⟩ := bl
    have h1 : j ∉ bil := h (be, bil) (by simp)
    have h2 : ∀ x ∈ bls, j ∉ x.2 := fun x hx => h x (by simp [hx])
    simp [scanAt, splitAtInst_none j bil h1, ih h2 hpre, joinInsts]

/-! ## Inversion lemmas for the cursor searches -/

/-- `find?` inversion: a hit splits the list at the first satisfying
element. -/
theorem find?_inv {α : Type} {p : α → Bool} :
    ∀ (l : List α) (x : α), l.find? p = some x →
      ∃ L1 L2, l = L1 ++ x :: L2 ∧ (∀ y ∈ L1, p y = false) ∧ p x = true := by
  intro l
  induction l with
  | nil => intro x h; simp at h
  | cons a rest ih =>
    intro x h
    by_cases hp : p a = true
    · rw [List.find?_cons_of_pos _ hp] at h
      obtain rfl : a = x := by simpa using h
      exact ⟨[], rest, by simp, by simp, hp⟩
    · rw [List.find?_cons_of_neg _ hp] at h
      obtain ⟨L1, L2, hl, hfails, hx⟩ := ih x h
      exact ⟨a :: L1, L2, by simp [hl], by
        intro y hy
        rcases List.mem_cons.mp hy with rfl | hy2
        · simpa using hp
        · exact hfails y hy2, hx⟩

/-- `tailAfter` inversion: a hit splits the list at the first occurrence. -/
theorem tailAfter_inv (j : Inst) :
    ∀ (il tl : List Inst), tailAfter il j = some tl →
      ∃ pre, il = pre ++ j :: tl ∧ j ∉ pre := by
  intro il
  induction il with
  | nil => intro tl h; simp [tailAfter] at h
  | cons x rest ih =>
    intro tl h
    by_cases hx : x = j
    · subst hx
      simp [tailAfter] at h
      exact ⟨[], by simp [h], by simp⟩
    · simp only [tailAfter, if_neg hx] at h
      obtain ⟨pre, hpre, hnm⟩ := ih tl h
      exact ⟨x :: pre, by simp [hpre], by
        intro hm
        rcases List.mem_cons.mp hm with rfl | hm2
        · exact hx rfl
        · exact hnm hm2⟩

/-- An instruction in the list has a tail after it. -/
theorem tailAfter_mem (j : Inst) :
    ∀ il : List Inst, j ∈ il → ∃ tl, tailAfter il j = some tl := by
  intro il
  induction il with
  | nil => intro h; simp at h
  | cons x rest ih =>
    intro h
    by_cases hx : x = j
    · exact ⟨rest, by simp [tailAfter, hx]⟩
    · rcases List.mem_cons.mp h with rfl | h2
      · exact absurd rfl hx
      · obtain ⟨tl, htl⟩ := ih h2
        exact ⟨tl, by simp [tailAfter, hx, htl]⟩

/-- `findInstBlock` inversion: a hit locates the first occurrence of the
instruction in the layout. -/
theorem findInstBlock_inv (f : Function) (j : Inst) (e : Ebb) (tl : List Inst)
    (h : findInstBlock f j = some (e, tl)) :
    ∃ L1 pre L2, f.layout = L1 ++ (e, pre ++ j :: tl) :: L2 ∧
      (∀ bl ∈ L1, j ∉ bl.2) ∧ j ∉ pre := by
  unfold findInstBlock at h
  suffices hgen : ∀ lay : List (Ebb × List Inst),
      findInstBlock.go j lay = some (e, tl) →
      ∃ L1 pre L2, lay = L1 ++ (e, pre ++ j :: tl) :: L2 ∧
        (∀ bl ∈ L1, j ∉ bl.2) ∧ j ∉ pre by
    exact hgen f.layout h
  intro lay
  induction lay with
  | nil => intro hg; simp [findInstBlock.go] at hg
  | cons bl rest ih =>
    intro hg
    obtain ⟨be, bil⟩ := bl
    simp only [findInstBlock.go] at hg
    cases hta : tailAfter bil j with
    | some tl2 =>
      rw [hta] at hg
      obtain ⟨hbe, htl⟩ : be = e ∧ tl2 = tl := by simpa using hg
      subst hbe; subst htl
      obtain ⟨pre, hpre, hnm⟩ := tailAfter_inv j bil tl2 hta
      exact ⟨[], pre, rest, by simp [hpre], by simp, hnm⟩
    | none =>
      rw [hta] at hg
      obtain ⟨L1, pre, L2, hlay, hL1, hpre⟩ := ih hg
      refine ⟨(be, bil) :: L1, pre, L2, by simp [hlay], ?_, hpre⟩
      intro x hx
      rcases List.mem_cons.mp hx with rfl | hx2
      · intro hm
        have hm2 : j ∈ bil := hm
        obtain ⟨tl2, htl2⟩ := tailAfter_mem j bil hm2
        rw [htl2] at hta
        exact absurd hta (by simp)
      · exact hL1 x hx2

/-- `findIdx?` inversion: a hit splits the list, with the index the length
of the failing prefix. -/
theorem findIdx?_inv {α : Type} {p : α → Bool} :
    ∀ (l : List α) (k : Nat), l.findIdx? p = some k →
      ∃ L1 x L2, l = L1 ++ x :: L2 ∧ L1.length = k ∧ p x = true ∧
        ∀ y ∈ L1, p y = false := by
  intro l
  induction l with
  | nil => intro k h; simp at h
  | cons a rest ih =>
    intro k h
    by_cases hp : p a = true
    · rw [List.findIdx?_cons, hp] at h
      simp at h
      exact ⟨[], a, rest, by simp, by simp [← h], hp, by simp⟩
    · rw [List.findIdx?_cons] at h
      simp only [hp] at h
      simp at h
      obtain ⟨k2, hk2, hkk⟩ := h
      obtain ⟨L1, x, L2, hl, hlen, hx, hfails⟩ := ih k2 hk2
      refine ⟨a :: L1, x, L2, by simp [hl], by simp [hlen, ← hkk], hx, ?_⟩
      intro y hy
      rcases List.mem_cons.mp hy with rfl | hy2
      · simpa using hp
      · exact hfails y hy2

/-- `findIdx?` computes the prefix length under a decomposition. -/
theorem findIdx?_eq_of_decomp {α : Type} {p : α → Bool} (x : α)
    (L2 : List α) (hx : p x = true) :
    ∀ L1 : List α, (∀ y ∈ L1, p y = false) →
      (L1 ++ x :: L2).findIdx? p = some L1.length := by
  intro L1
  induction L1 with
  | nil => intro _; simp [List.findIdx?_cons, hx]
  | cons a rest ih =>
    intro h
    have h1 : p a = false := h a (by simp)
    have h2 : ∀ y ∈ rest, p y = false := fun y hy => h y (by simp [hy])
    simp only [List.cons_append, List.findIdx?_cons, h1]
    simp [ih h2]

/-- Fetching an instruction characterizes the cursor: the new position is at
the fetched instruction, the layout splits at it, the scanned prefix is
exactly what precedes it, and the old position was either the top of its
block or at its in-block predecessor. -/
theorem fetch_spec (f : Function) (p : CursorPosition) (i : Inst)
    (q : CursorPosition) (h : next_inst f p = (some i, q)) :
    q = .At i ∧
    ∃ L1 e pre tl L2,
      f.layout = L1 ++ (e, pre ++ i :: tl) :: L2 ∧
      scanned f p = joinInsts L1 ++ pre ∧
      ((p = .Before e ∧ pre = []) ∨ (∃ j pre0, p = .At j ∧ pre = pre0 ++ [j])) := by
  cases p with
  | Nowhere => simp [next_inst] at h
  | After e => simp [next_inst] at h
  | Before e =>
    simp only [next_inst] at h
    cases hf : f.layout.find? (fun bl => bl.1 = e) with
    | none => rw [hf] at h; simp at h
    | some bl =>
      obtain ⟨e', il⟩ := bl
      rw [hf] at h
      cases il with
      | nil => simp at h
      | cons i0 rest =>
        obtain ⟨hi, hq⟩ : i0 = i ∧ CursorPosition.At i0 = q := by simpa using h
        subst hi; subst hq
        obtain ⟨L1, L2, hlay, hfails, hpred⟩ := find?_inv f.layout (e', i0 :: rest) hf
        have he : e' = e := by simpa using hpred
        subst he
        refine ⟨rfl, L1, e', [], rest, L2, by simpa using hlay, ?_, .inl ⟨rfl, rfl⟩⟩
        have hne : ∀ x ∈ L1, x.1 ≠ e' := by
          intro x hx
          have := hfails x hx
          simpa using this
        simp [scanned, hlay, scanBefore_eq e' (i0 :: rest) L2 L1 hne, joinInsts]
  | At j =>
    simp only [next_inst] at h
    cases hf : findInstBlock f j with
    | none => rw [hf] at h; simp at h
    | some bl =>
      obtain ⟨e, tl⟩ := bl
      rw [hf] at h
      cases tl with
      | nil => simp at h
      | cons i0 rest =>
        obtain ⟨hi, hq⟩ : i0 = i ∧ CursorPosition.At i0 = q := by simpa using h
        subst hi; subst hq
        obtain ⟨L1, pre0, L2, hlay, hL1, hpre⟩ := findInstBlock_inv f j e (i0 :: rest) hf
        refine ⟨rfl, L1, e, pre0 ++ [j], rest, L2, by simpa using hlay, ?_,
          .inr ⟨j, pre0, rfl, rfl⟩⟩
        rw [show joinInsts L1 ++ (pre0 ++ [j]) = joinInsts L1 ++ pre0 ++ [j] by simp]
        simp [scanned, hlay, scanAt_eq j e pre0 (i0 :: rest) L2 L1 hL1 hpre]

/-- Indexing just past a decomposed prefix reads the head of the suffix. -/
theorem get?_append_succ {α : Type} (L1 : List α) (x : α) (L2 : List α) :
    (L1 ++ x :: L2).get? (L1.length + 1) = L2.get? 0 := by
  rw [List.get?_eq_getElem?, List.get?_eq_getElem?,
    List.getElem?_append_right (by omega)]
  simp

/-- `joinInsts` distributes over append. -/
theorem joinInsts_append (A B : List (Ebb × List Inst)) :
    joinInsts (A ++ B) = joinInsts A ++ joinInsts B := by
  simp [joinInsts]

/-- Stepping the outer loop from the bottom of a block: whatever the cursor
scans from the new position was already scanned, and when no block remains
the whole layout was scanned. -/
theorem next_ebb_after_spec (f : Function) (e : Ebb) (r : Option Ebb)
    (pos2 : CursorPosition) (hids : (f.layout.map Prod.fst).Nodup)
    (h2 : next_ebb f (.After e) = (r, pos2)) :
    (∀ j ∈ scanned f pos2, j ∈ scanned f (.After e)) ∧
    (r = none → ∀ j ∈ layoutInsts f, j ∈ scanned f (.After e)) := by
  simp only [next_ebb, current_ebb] at h2
  cases hidx : ebbIndex f e with
  | none =>
    rw [hidx] at h2
    cases hlay : f.layout with
    | nil =>
      rw [hlay] at h2
      obtain ⟨hr, hpos⟩ : (none : Option Ebb) = r ∧ CursorPosition.Nowhere = pos2 := by
        simpa using h2
      subst hr; subst hpos
      refine ⟨by simp [scanned], ?_⟩
      intro _ j hj
      rw [layoutInsts, hlay] at hj
      simp at hj
    | cons bl rest =>
      obtain ⟨e0, il0⟩ := bl
      rw [hlay] at h2
      obtain ⟨hr, hpos⟩ : some e0 = r ∧ CursorPosition.Before e0 = pos2 := by
        simpa using h2
      subst hr; subst hpos
      refine ⟨?_, by intro hcon; exact absurd hcon (by simp)⟩
      intro j hj
      rw [scanned, hlay] at hj
      simp [scanBefore] at hj
  | some k =>
    rw [hidx] at h2
    dsimp only at h2
    obtain ⟨L1, bl, L2, hlay, hlen, hpred, hfails⟩ :=
      findIdx?_inv f.layout k hidx
    obtain ⟨be, il⟩ := bl
    have hbe : be = e := by simpa using hpred
    subst hbe
    have hne : ∀ x ∈ L1, x.1 ≠ be := by
      intro x hx
      have := hfails x hx
      simpa using this
    have hscA : scanned f (.After be) = joinInsts L1 ++ il := by
      simp [scanned, hlay, scanAfter_eq be il L2 L1 hne]
    cases hget : f.layout.get? (k + 1) with
    | some bl2 =>
      obtain ⟨e2, il2⟩ := bl2
      rw [hget] at h2
      obtain ⟨hr, hpos⟩ : some e2 = r ∧ CursorPosition.Before e2 = pos2 := by
        simpa using h2
      subst hr; subst hpos
      refine ⟨?_, by intro hcon; exact absurd hcon (by simp)⟩
      rw [hlay, ← hlen] at hget
      rw [get?_append_succ] at hget
      cases hL2 : L2 with
      | nil => rw [hL2] at hget; simp at hget
      | cons bl3 L2b =>
        rw [hL2] at hget
        obtain hbl3 : bl3 = (e2, il2) := by simpa using hget
        subst hbl3
        have hlay2 : f.layout = (L1 ++ [(be, il)]) ++ (e2, il2) :: L2b := by
          rw [hlay, hL2]; simp
        have hne2 : ∀ x ∈ L1 ++ [(be, il)], x.1 ≠ e2 := by
          have hnm := nodup_ebb_not_before f (L1 ++ [(be, il)]) L2b e2 il2 hlay2 hids
          intro x hx hxe
          exact hnm (by rw [← hxe]; exact List.mem_map_of_mem _ hx)
        have hscB : scanned f (.Before e2) = joinInsts L1 ++ il := by
          rw [scanned, hlay2, scanBefore_eq e2 il2 L2b (L1 ++ [(be, il)]) hne2,
            joinInsts_append]
          simp [joinInsts]
        intro j hj
        rw [hscB] at hj
        rw [hscA]
        exact hj
    | none =>
      rw [hget] at h2
      obtain ⟨hr, hpos⟩ : (none : Option Ebb) = r ∧ CursorPosition.Nowhere = pos2 := by
        simpa using h2
      subst hr; subst hpos
      refine ⟨by simp [scanned], ?_⟩
      intro _ j hj
      rw [hlay, ← hlen, get?_append_succ] at hget
      cases hL2 : L2 with
      | cons bl3 L2b => rw [hL2] at hget; simp at hget
      | nil =>
        rw [hL2] at hlay
        rw [layoutInsts, hlay] at hj
        rw [hscA]
        simpa [joinInsts] using hj

/-- Exhausting a block and stepping the outer loop: nothing newly scanned
from the new position, and if no block remains, the scanned prefix covers
the whole layout. -/
theorem exhaust_spec (f : Function) (p pos1 : CursorPosition) (r : Option Ebb)
    (pos2 : CursorPosition) (hnodup : NodupLayout f)
    (h1 : next_inst f p = (none, pos1)) (h2 : next_ebb f pos1 = (r, pos2)) :
    (∀ j ∈ scanned f pos2, j ∈ scanned f p) ∧
    (r = none → ∀ j ∈ layoutInsts f, j ∈ scanned f p) := by
  obtain ⟨hids, hinsts⟩ := hnodup
  cases p with
  | Nowhere =>
    obtain hpos1 : CursorPosition.Nowhere = pos1 := by simpa [next_inst] using h1
    subst hpos1
    simp only [next_ebb, current_ebb] at h2
    cases hlay : f.layout with
    | nil =>
      rw [hlay] at h2
      obtain ⟨hr, hpos⟩ : (none : Option Ebb) = r ∧ CursorPosition.Nowhere = pos2 := by
        simpa using h2
      subst hr; subst hpos
      refine ⟨by simp [scanned], ?_⟩
      intro _ j hj
      rw [layoutInsts, hlay] at hj
      simp at hj
    | cons bl rest =>
      obtain ⟨e0, il0⟩ := bl
      rw [hlay] at h2
      obtain ⟨hr, hpos⟩ : some e0 = r ∧ CursorPosition.Before e0 = pos2 := by
        simpa using h2
      subst hr; subst hpos
      refine ⟨?_, by intro hcon; exact absurd hcon (by simp)⟩
      intro j hj
      rw [scanned, hlay] at hj
      simp [scanBefore] at hj
  | After e =>
    obtain hpos1 : CursorPosition.After e = pos1 := by simpa [next_inst] using h1
    subst hpos1
    exact next_ebb_after_spec f e r pos2 hids h2
  | Before e =>
    simp only [next_inst] at h1
    cases hf : f.layout.find? (fun bl => bl.1 = e) with
    | some bl =>
      obtain ⟨e', il⟩ := bl
      rw [hf] at h1
      cases il with
      | cons i0 rest => simp at h1
      | nil =>
        obtain hpos1 : CursorPosition.After e = pos1 := by simpa using h1
        subst hpos1
        obtain ⟨L1, L2, hlay, hfails, hpred⟩ := find?_inv f.layout (e', []) hf
        have he : e' = e := by simpa using hpred
        subst he
        have hne : ∀ x ∈ L1, x.1 ≠ e' := by
          intro x hx
          have := hfails x hx
          simpa using this
        have heq : scanned f (.After e') = scanned f (.Before e') := by
          rw [scanned, scanned, hlay, scanAfter_eq e' [] L2 L1 hne,
            scanBefore_eq e' [] L2 L1 hne]
          simp
        have hspec := next_ebb_after_spec f e' r pos2 hids h2
        rw [heq] at hspec
        exact hspec
    | none =>
      rw [hf] at h1
      obtain hpos1 : CursorPosition.After e = pos1 := by simpa using h1
      subst hpos1
      have hmiss : ebbIndex f e = none := by
        rw [ebbIndex, List.findIdx?_eq_none_iff]
        intro x hx
        have := List.find?_eq_none.mp hf x hx
        simpa using this
      simp only [next_ebb, current_ebb, hmiss] at h2
      cases hlay : f.layout with
      | nil =>
        rw [hlay] at h2
        obtain ⟨hr, hpos⟩ : (none : Option Ebb) = r ∧ CursorPosition.Nowhere = pos2 := by
          simpa using h2
        subst hr; subst hpos
        refine ⟨by simp [scanned], ?_⟩
        intro _ j hj
        rw [layoutInsts, hlay] at hj
        simp at hj
      | cons bl rest =>
        obtain ⟨e0, il0⟩ := bl
        rw [hlay] at h2
        obtain ⟨hr, hpos⟩ : some e0 = r ∧ CursorPosition.Before e0 = pos2 := by
          simpa using h2
        subst hr; subst hpos
        refine ⟨?_, by intro hcon; exact absurd hcon (by simp)⟩
        intro j hj
        rw [scanned, hlay] at hj
        simp [scanBefore] at hj
  | At j0 =>
    simp only [next_inst] at h1
    cases hfi : findInstBlock f j0 with
    | some bl =>
      obtain ⟨e, tl⟩ := bl
      rw [hfi] at h1
      cases tl with
      | cons i0 rest => simp at h1
      | nil =>
        obtain hpos1 : CursorPosition.After e = pos1 := by simpa using h1
        subst hpos1
        obtain ⟨L1, pre0, L2, hlay, hL1, hpre⟩ := findInstBlock_inv f j0 e [] hfi
        have hlay2 : f.layout = L1 ++ (e, pre0 ++ [j0]) :: L2 := by
          simpa using hlay
        have hnm := nodup_ebb_not_before f L1 L2 e (pre0 ++ [j0]) hlay2 hids
        have hne : ∀ x ∈ L1, x.1 ≠ e := by
          intro x hx hxe
          exact hnm (by rw [← hxe]; exact List.mem_map_of_mem _ hx)
        have heq : scanned f (.After e) = scanned f (.At j0) := by
          rw [scanned, scanned, hlay2, scanAfter_eq e (pre0 ++ [j0]) L2 L1 hne,
            scanAt_eq j0 e pre0 [] L2 L1 hL1 hpre]
          simp
        have hspec := next_ebb_after_spec f e r pos2 hids h2
        rw [heq] at hspec
        exact hspec
    | none =>
      rw [hfi] at h1
      obtain hpos1 : CursorPosition.Nowhere = pos1 := by simpa using h1
      subst hpos1
      simp only [next_ebb, current_ebb] at h2
      cases hlay : f.layout with
      | nil =>
        rw [hlay] at h2
        obtain ⟨hr, hpos⟩ : (none : Option Ebb) = r ∧ CursorPosition.Nowhere = pos2 := by
          simpa using h2
        subst hr; subst hpos
        refine ⟨by simp [scanned], ?_⟩
        intro _ j hj
        rw [layoutInsts, hlay] at hj
        simp at hj
      | cons bl rest =>
        obtain ⟨e0, il0⟩ := bl
        rw [hlay] at h2
        obtain ⟨hr, hpos⟩ : some e0 = r ∧ CursorPosition.Before e0 = pos2 := by
          simpa using h2
        subst hr; subst hpos
        refine ⟨?_, by intro hcon; exact absurd hcon (by simp)⟩
        intro j hj
        rw [scanned, hlay] at hj
        simp [scanBefore] at hj

/-! ## The driver invariant -/

/-- `setEnc` only touches the encodings table. -/
theorem setEnc_fields (f : Function) (i : Inst) (e : Encoding) :
    (setEnc f i e).layout = f.layout ∧ (setEnc f i e).dfg_data = f.dfg_data ∧
    (setEnc f i e).num_ebbs = f.num_ebbs := by
  unfold setEnc
  split <;> exact ⟨rfl, rfl, rfl⟩

/-- `setEnc` records the encoding at the instruction's slot. -/
theorem setEnc_self (f : Function) (i : Inst) (e : Encoding) :
    encAt (setEnc f i e) i = some e := by
  unfold setEnc encAt
  split
  case isTrue h =>
    simp [List.getD_eq_getElem?_getD, List.getElem?_set_self h]
  case isFalse h =>
    have hlen : i < (f.encodings ++
        List.replicate (i + 1 - f.encodings.length) none).length := by
      rw [List.length_append, List.length_replicate]
      have h2 : f.encodings.length ≤ i := Nat.le_of_not_lt h
      rw [Nat.add_sub_cancel' (Nat.le_succ_of_le h2)]
      exact Nat.lt_succ_self i
    simp [List.getD_eq_getElem?_getD, List.getElem?_set_self hlen]

/-- `setEnc` leaves every other slot unchanged. -/
theorem setEnc_other (f : Function) (i : Inst) (e : Encoding) (j : Inst)
    (hj : j ≠ i) : encAt (setEnc f i e) j = encAt f j := by
  unfold setEnc encAt
  split
  · simp [List.getD_eq_getElem?_getD, List.getElem?_set_ne (Ne.symm hj)]
  · rcases Nat.lt_or_ge j f.encodings.length with hlt | hge
    · simp [List.getD_eq_getElem?_getD, List.getElem?_set_ne (Ne.symm hj),
        List.getElem?_append_left hlt]
    · rw [List.getD_eq_getElem?_getD, List.getD_eq_getElem?_getD,
        List.getElem?_set_ne (Ne.symm hj), List.getElem?_append_right hge,
        List.getElem?_eq_none hge]
      rcases Nat.lt_or_ge (j - f.encodings.length)
          (i + 1 - f.encodings.length) with h2 | h2
      · simp [List.getElem?_replicate, h2]
      · have hlen2 : (List.replicate (i + 1 - f.encodings.length)
            (none : Option Encoding)).length ≤ j - f.encodings.length := by
          rw [List.length_replicate]; exact h2
        simp [List.getElem?_eq_none hlen2]

/-- A call opcode is not a return. -/
theorem is_call_not_return (op : Opcode) (h : op.is_call = true) :
    op.is_return = false := by
  cases op <;> simp_all [Opcode.is_call, Opcode.is_return]

/-- A call opcode is not a branch. -/
theorem is_call_not_branch (op : Opcode) (h : op.is_call = true) :
    op.is_branch = false := by
  cases op <;> simp_all [Opcode.is_call, Opcode.is_branch]

/-- A return opcode is not a branch. -/
theorem is_return_not_branch (op : Opcode) (h : op.is_return = true) :
    op.is_branch = false := by
  cases op <;> simp_all [Opcode.is_return, Opcode.is_branch]

/-- An instruction absent from the earlier blocks and from its own block's
prefix is not in the scanned prefix. -/
theorem not_mem_prefix (i : Inst) (L1 : List (Ebb × List Inst))
    (pre : List Inst) (h1 : ∀ bl ∈ L1, i ∉ bl.2) (h2 : i ∉ pre) :
    i ∉ joinInsts L1 ++ pre := by
  intro hm
  rcases List.mem_append.mp hm with hm1 | hm2
  · rw [joinInsts, List.mem_flatten] at hm1
    obtain ⟨l, hl, hil⟩ := hm1
    obtain ⟨bl, hbl, hblsnd⟩ := List.mem_map.mp hl
    exact h1 bl hbl (by rw [hblsnd]; exact hil)
  · exact h2 hm2

/-- `NodupLayout` only depends on the layout. -/
theorem nodup_of_layout_eq (f f' : Function) (h : f'.layout = f.layout)
    (hn : NodupLayout f) : NodupLayout f' := by
  unfold NodupLayout layoutInsts at hn ⊢
  rw [h]
  exact hn

/-- The obligation the driver's protocol places on a mutator invoked on
instruction `i`: reporting no change means the function is untouched, and a
reported change leaves the already-scanned prefix intact — the layout up to
`i`'s slot is preserved (new code may replace `i` and what followed it, or
append blocks), the data and recorded encodings of prefix instructions are
unchanged, and identities stay unique. -/
def MutPreserves (i : Inst) (f : Function)
    (out : Bool × Function × ControlFlowGraph) : Prop :=
  (out.1 = false → out.2.1 = f) ∧
  (out.1 = true →
    (NodupLayout f → NodupLayout out.2.1) ∧
    ∀ L1 e pre tl L2, f.layout = L1 ++ (e, pre ++ i :: tl) :: L2 →
      ∃ tl2 L2b, out.2.1.layout = L1 ++ (e, pre ++ tl2) :: L2b ∧
        ∀ j ∈ joinInsts L1 ++ pre,
          dataAt out.2.1 j = dataAt f j ∧ encAt out.2.1 j = encAt f j)

/-- Instruction `j` is finalized: its recorded encoding agrees with a legal
verdict of the target on its current data. -/
def EncOk (env : LegalizeEnv) (f : Function) (j : Inst) : Prop :=
  ∃ enc, encAt f j = some enc ∧ env.encode (dataAt f j) = .ok enc

/-- The loop invariant of the driver: at the top of the loop the rewind
target coincides with the cursor, identities are unique, and everything the
cursor has scanned is finalized. -/
def DriverInv (env : LegalizeEnv) (s : DriverState) : Prop :=
  s.prev_pos = s.pos ∧ NodupLayout s.func ∧
  ∀ j ∈ scanned s.func s.pos, EncOk env s.func j

/-- The collaborator contracts under which the driver's postcondition holds:
actions carried by illegal verdicts always report a change and preserve the
scanned prefix, the ABI boundary handlers preserve it likewise, and the
branch simplifier rewrites only the instruction it is given. -/
structure EnvContract (env : LegalizeEnv) : Prop where
  act_changed : ∀ d a, env.encode d = .err a → ∀ i f c, (a i f c).1 = true
  act_pres : ∀ d a, env.encode d = .err a → ∀ i f c,
    MutPreserves i f (a i f c)
  call_pres : ∀ i f c, MutPreserves i f (env.handle_call_abi i f c)
  ret_pres : ∀ i f c, MutPreserves i f (env.handle_return_abi i f c)
  simp_local : ∀ dfg i j, j ≠ i →
    (env.simplify_branch_arguments dfg i).getD j .Trap = dfg.getD j .Trap

/-- A mutation that preserved the scanned prefix leaves the scan of the
pre-fetch position unchanged. -/
theorem scanned_transfer (f' : Function) (L1 L2b : List (Ebb × List Inst))
    (e : Ebb) (pre tl2 : List Inst) (p : CursorPosition)
    (hlay' : f'.layout = L1 ++ (e, pre ++ tl2) :: L2b)
    (hpos : (p = .Before e ∧ pre = []) ∨
      (∃ j pre0, p = .At j ∧ pre = pre0 ++ [j]))
    (hnodup' : NodupLayout f') :
    scanned f' p = joinInsts L1 ++ pre := by
  obtain ⟨hids', hinsts'⟩ := hnodup'
  rcases hpos with ⟨hp, hpre⟩ | ⟨j, pre0, hp, hpre⟩
  · subst hp; subst hpre
    have hlay2 : f'.layout = L1 ++ (e, tl2) :: L2b := by simpa using hlay'
    have hnm := nodup_ebb_not_before f' L1 L2b e tl2 hlay2 hids'
    have hne : ∀ x ∈ L1, x.1 ≠ e := by
      intro x hx hxe
      exact hnm (by rw [← hxe]; exact List.mem_map_of_mem _ hx)
    rw [scanned, hlay2, scanBefore_eq e tl2 L2b L1 hne]
    simp
  · subst hp; subst hpre
    have hlay2 : f'.layout = L1 ++ (e, pre0 ++ j :: tl2) :: L2b := by
      simpa using hlay'
    obtain ⟨hnb, hnp⟩ := nodup_inst_not_before f' L1 L2b e pre0 j tl2 hlay2
      hinsts'
    rw [scanned, hlay2, scanAt_eq j e pre0 tl2 L2b L1 hnb hnp]
    simp

/-- After a prefix-preserving mutation and a rewind, the invariant holds at
the rewound state. -/
theorem inv_after_mutation (env : LegalizeEnv) (f f' : Function)
    (c' : ControlFlowGraph) (p : CursorPosition) (inst : Inst)
    (L1 L2 : List (Ebb × List Inst)) (e : Ebb) (pre tl : List Inst)
    (_hlay : f.layout = L1 ++ (e, pre ++ inst :: tl) :: L2)
    (hpos : (p = .Before e ∧ pre = []) ∨
      (∃ j pre0, p = .At j ∧ pre = pre0 ++ [j]))
    (hnodup' : NodupLayout f')
    (hdec : ∃ tl2 L2b, f'.layout = L1 ++ (e, pre ++ tl2) :: L2b ∧
      ∀ j ∈ joinInsts L1 ++ pre,
        dataAt f' j = dataAt f j ∧ encAt f' j = encAt f j)
    (hok : ∀ j ∈ joinInsts L1 ++ pre, EncOk env f j) :
    DriverInv env ⟨f', c', p, p⟩ := by
  obtain ⟨tl2, L2b, hlay', hkeep⟩ := hdec
  refine ⟨rfl, hnodup', ?_⟩
  intro j hj
  rw [show (DriverState.mk f' c' p p).func = f' from rfl,
    show (DriverState.mk f' c' p p).pos = p from rfl,
    scanned_transfer f' L1 L2b e pre tl2 p hlay' hpos hnodup'] at hj
  obtain ⟨enc, henc, hverdict⟩ := hok j hj
  obtain ⟨hd, he⟩ := hkeep j hj
  exact ⟨enc, by rw [he]; exact henc, by rw [hd]; exact hverdict⟩

/-- After a legal verdict is recorded, the invariant holds at the advanced
state. -/
theorem inv_after_legal (env : LegalizeEnv) (f fS : Function)
    (cNew : ControlFlowGraph) (inst : Inst) (enc : Encoding)
    (L1 L2 : List (Ebb × List Inst)) (e : Ebb) (pre tl : List Inst)
    (hlay : f.layout = L1 ++ (e, pre ++ inst :: tl) :: L2)
    (hnodup : NodupLayout f)
    (hok : ∀ j ∈ joinInsts L1 ++ pre, EncOk env f j)
    (hSlay : fS.layout = f.layout) (hSenc : fS.encodings = f.encodings)
    (hSdata : ∀ j, j ≠ inst → dataAt fS j = dataAt f j)
    (henc : env.encode (dataAt fS inst) = .ok enc) :
    DriverInv env ⟨setEnc fS inst enc, cNew, .At inst, .At inst⟩ := by
  obtain ⟨hfree1, hfree2⟩ :=
    nodup_inst_not_before f L1 L2 e pre inst tl hlay hnodup.2
  have hnin : inst ∉ joinInsts L1 ++ pre := not_mem_prefix inst L1 pre hfree1 hfree2
  have hNlay : (setEnc fS inst enc).layout = f.layout := by
    rw [(setEnc_fields fS inst enc).1, hSlay]
  refine ⟨rfl, nodup_of_layout_eq f _ hNlay hnodup, ?_⟩
  intro j hj
  have hsc : scanned (setEnc fS inst enc) (.At inst) =
      joinInsts L1 ++ pre ++ [inst] := by
    rw [scanned, hNlay, hlay, scanAt_eq inst e pre tl L2 L1 hfree1 hfree2]
  rw [show (DriverState.mk (setEnc fS inst enc) cNew (.At inst) (.At inst)).func =
    setEnc fS inst enc from rfl] at hj
  rw [hsc] at hj
  have hdata_keep : ∀ x : Inst, dataAt (setEnc fS inst enc) x = dataAt fS x := by
    intro x
    rw [dataAt, dataAt, (setEnc_fields fS inst enc).2.1]
  rcases List.mem_append.mp hj with hj1 | hj2
  · have hjne : j ≠ inst := fun hx => hnin (hx ▸ hj1)
    obtain ⟨enc0, henc0, hv0⟩ := hok j hj1
    refine ⟨enc0, ?_, ?_⟩
    · rw [setEnc_other fS inst enc j hjne, encAt, hSenc, ← encAt]
      exact henc0
    · rw [hdata_keep j, hSdata j hjne]
      exact hv0
  · have hji : j = inst := by simpa using hj2
    refine ⟨enc, ?_, ?_⟩
    · rw [hji]; exact setEnc_self fS inst enc
    · rw [hji, hdata_keep inst]; exact henc

/-- The legality-check stage preserves the driver invariant, whatever the
verdict, under the collaborator contracts. -/
theorem encodeStage_inv (env : LegalizeEnv) (hc : EnvContract env)
    (f : Function) (c : ControlFlowGraph) (pv : CursorPosition) (inst : Inst)
    (op : Opcode) (L1 L2 : List (Ebb × List Inst)) (e : Ebb)
    (pre tl : List Inst)
    (hlay : f.layout = L1 ++ (e, pre ++ inst :: tl) :: L2)
    (hpos : (pv = .Before e ∧ pre = []) ∨
      (∃ j pre0, pv = .At j ∧ pre = pre0 ++ [j]))
    (hnodup : NodupLayout f)
    (hokP : ∀ j ∈ joinInsts L1 ++ pre, EncOk env f j) :
    DriverInv env (encodeStage env ⟨f, c, .At inst, pv⟩ inst op) := by
  obtain ⟨hfree1, hfree2⟩ :=
    nodup_inst_not_before f L1 L2 e pre inst tl hlay hnodup.2
  have hnin : inst ∉ joinInsts L1 ++ pre :=
    not_mem_prefix inst L1 pre hfree1 hfree2
  obtain ⟨fS, hbs, hSlay, hSenc, hSdata⟩ :
      ∃ fS, branchSimplified env ⟨f, c, .At inst, pv⟩ inst op =
          ⟨fS, c, .At inst, pv⟩ ∧ fS.layout = f.layout ∧
        fS.encodings = f.encodings ∧
        ∀ j, j ≠ inst → dataAt fS j = dataAt f j := by
    by_cases hbr : op.is_branch = true
    · refine ⟨{ f with dfg_data := env.simplify_branch_arguments f.dfg_data inst },
        ?_, rfl, rfl, ?_⟩
      · unfold branchSimplified
        rw [if_pos hbr]
      · intro j hj
        exact hc.simp_local f.dfg_data inst j hj
    · refine ⟨f, ?_, rfl, rfl, fun _ _ => rfl⟩
      unfold branchSimplified
      rw [if_neg hbr]
  have hlayS : fS.layout = L1 ++ (e, pre ++ inst :: tl) :: L2 := by
    rw [hSlay]; exact hlay
  have hnodupS : NodupLayout fS := nodup_of_layout_eq f fS hSlay hnodup
  have hokS : ∀ j ∈ joinInsts L1 ++ pre, EncOk env fS j := by
    intro j hj
    have hjne : j ≠ inst := fun hx => hnin (hx ▸ hj)
    obtain ⟨enc0, henc0, hv0⟩ := hokP j hj
    refine ⟨enc0, ?_, ?_⟩
    · rw [encAt, hSenc, ← encAt]; exact henc0
    · rw [hSdata j hjne]; exact hv0
  simp only [encodeStage, hbs]
  cases henc : env.encode (dataAt fS inst) with
  | ok enc =>
    exact inv_after_legal env f fS c inst enc L1 L2 e pre tl hlay hnodup hokP
      hSlay hSenc hSdata henc
  | err a =>
    dsimp only
    have hch := hc.act_changed _ a henc inst fS c
    have hmut := hc.act_pres _ a henc inst fS c
    rcases hact : a inst fS c with ⟨b2, f3, c3⟩
    rw [hact] at hch hmut
    cases b2 with
    | false => exact absurd hch (by simp)
    | true =>
      exact inv_after_mutation env fS f3 c3 pv inst L1 L2 e pre tl hlayS hpos
        ((hmut.2 rfl).1 hnodupS) ((hmut.2 rfl).2 L1 e pre tl L2 hlayS) hokS

/-- The return-boundary stage preserves the driver invariant. -/
theorem returnStage_inv (env : LegalizeEnv) (hc : EnvContract env)
    (f : Function) (c : ControlFlowGraph) (pv : CursorPosition) (inst : Inst)
    (op : Opcode) (L1 L2 : List (Ebb × List Inst)) (e : Ebb)
    (pre tl : List Inst)
    (hlay : f.layout = L1 ++ (e, pre ++ inst :: tl) :: L2)
    (hpos : (pv = .Before e ∧ pre = []) ∨
      (∃ j pre0, pv = .At j ∧ pre = pre0 ++ [j]))
    (hnodup : NodupLayout f)
    (hokP : ∀ j ∈ joinInsts L1 ++ pre, EncOk env f j) :
    DriverInv env (returnStage env ⟨f, c, .At inst, pv⟩ inst op) := by
  simp only [returnStage]
  by_cases hret : op.is_return = true
  · rw [if_pos hret]
    have hmut := hc.ret_pres inst f c
    rcases hout : env.handle_return_abi inst f c with ⟨b, f2, c2⟩
    rw [hout] at hmut
    cases b with
    | false =>
      have hfid : f2 = f := hmut.1 rfl
      subst hfid
      exact encodeStage_inv env hc f2 c2 pv inst op L1 L2 e pre tl hlay hpos
        hnodup hokP
    | true =>
      exact inv_after_mutation env f f2 c2 pv inst L1 L2 e pre tl hlay hpos
        ((hmut.2 rfl).1 hnodup) ((hmut.2 rfl).2 L1 e pre tl L2 hlay) hokP
  · rw [if_neg hret]
    exact encodeStage_inv env hc f c pv inst op L1 L2 e pre tl hlay hpos
      hnodup hokP

/-- One full driver iteration preserves the invariant. -/
theorem driver_step_inv (env : LegalizeEnv) (hc : EnvContract env)
    (s : DriverState) (inst : Inst) (q : CursorPosition)
    (hInv : DriverInv env s)
    (hni : next_inst s.func s.pos = (some inst, q)) :
    DriverInv env (driver_step env { s with pos := q } inst) := by
  obtain ⟨hpp, hnodup, hok⟩ := hInv
  obtain ⟨hq, L1, e, pre, tl, L2, hlay, hscan, hpos⟩ :=
    fetch_spec s.func s.pos inst q hni
  subst hq
  have hokP : ∀ j ∈ joinInsts L1 ++ pre, EncOk env s.func j := by
    intro j hj
    exact hok j (by rw [hscan]; exact hj)
  show DriverInv env
    (driver_step env ⟨s.func, s.cfg, .At inst, s.prev_pos⟩ inst)
  rw [hpp]
  simp only [driver_step]
  by_cases hcall : (dataAt s.func inst).opcode.is_call = true
  · rw [if_pos hcall]
    have hmut := hc.call_pres inst s.func s.cfg
    rcases hout : env.handle_call_abi inst s.func s.cfg with ⟨b, f2, c2⟩
    rw [hout] at hmut
    cases b with
    | false =>
      have hfid : f2 = s.func := hmut.1 rfl
      subst hfid
      exact returnStage_inv env hc s.func c2 s.pos inst _ L1 L2 e pre tl hlay
        hpos hnodup hokP
    | true =>
      exact inv_after_mutation env s.func f2 c2 s.pos inst L1 L2 e pre tl hlay
        hpos ((hmut.2 rfl).1 hnodup) ((hmut.2 rfl).2 L1 e pre tl L2 hlay) hokP
  · rw [if_neg hcall]
    exact returnStage_inv env hc s.func s.cfg s.pos inst _ L1 L2 e pre tl hlay
      hpos hnodup hokP

/-- A completed run of the fuelled driver loop, started in an invariant
state, finalizes every instruction of the final layout. -/
theorem legalize_loop_inv (env : LegalizeEnv) (hc : EnvContract env) :
    ∀ (fuel : Nat) (s sf : DriverState), DriverInv env s →
      legalize_loop env fuel s = some sf →
      ∀ j ∈ layoutInsts sf.func, EncOk env sf.func j := by
  intro fuel
  induction fuel with
  | zero => intro s sf _ h; simp [legalize_loop] at h
  | succ n ih =>
    intro s sf hInv hrun
    simp only [legalize_loop] at hrun
    rcases hni : next_inst s.func s.pos with ⟨oi, pos1⟩
    rw [hni] at hrun
    cases oi with
    | some inst =>
      exact ih (driver_step env { s with pos := pos1 } inst) sf
        (driver_step_inv env hc s inst pos1 hInv hni) hrun
    | none =>
      dsimp only at hrun
      rcases hne : next_ebb s.func pos1 with ⟨r, pos2⟩
      rw [hne] at hrun
      obtain ⟨hpp, hnodup, hok⟩ := hInv
      have hex := exhaust_spec s.func s.pos pos1 r pos2 hnodup hni hne
      cases r with
      | some e2 =>
        refine ih { s with pos := pos2, prev_pos := pos2 } sf ⟨rfl, hnodup, ?_⟩
          hrun
        intro j hj
        exact hok j (hex.1 j hj)
      | none =>
        obtain hsf : { s with pos := pos2 } = sf := by simpa using hrun
        subst hsf
        intro j hj
        exact hok j (hex.2 rfl j hj)

/-- **C1 (amended).** Under the collaborator contracts — every action
carried by an illegal verdict reports a change and preserves the
already-scanned prefix, the ABI boundary handlers do likewise, the branch
simplifier rewrites only its own instruction, and identities are unique
after signature legalization — every function on which `legalize_function`
completes has an encoding recorded for every instruction of the final
layout, and the target's legality query on that instruction returns legal
with that very encoding.  (Without the no-change clause of the contract the
postcondition fails, as the counterexample shows: an illegal instruction
whose action reports no change is skipped and stays unencoded.) -/
theorem legalize_function_encodes_all (env : LegalizeEnv) (fuel : Nat)
    (func : Function) (cfg : ControlFlowGraph) (f' : Function)
    (c' : ControlFlowGraph) (hc : EnvContract env)
    (hnodup : NodupLayout (env.legalize_signatures func))
    (hrun : legalize_function env fuel func cfg = .ok f' c') :
    ∀ i ∈ layoutInsts f',
      ∃ enc, encAt f' i = some enc ∧ env.encode (dataAt f' i) = .ok enc := by
  unfold legalize_function at hrun
  split at hrun
  · exact absurd hrun (by simp)
  · dsimp only at hrun
    cases hloop : legalize_loop env fuel
        ⟨{ env.legalize_signatures func with
            encodings := ((env.legalize_signatures func).encodings ++
              List.replicate (env.legalize_signatures func).dfg_data.length
                none).take (env.legalize_signatures func).dfg_data.length },
          cfg, .Nowhere, .Nowhere⟩ with
    | none => rw [hloop] at hrun; exact absurd hrun (by simp)
    | some sfin =>
      rw [hloop] at hrun
      obtain ⟨hf, _⟩ : sfin.func = f' ∧ sfin.cfg = c' := by
        have := hrun
        simp only [DriverOutcome.ok.injEq] at this
        exact this
      have hInv0 : DriverInv env
          ⟨{ env.legalize_signatures func with
              encodings := ((env.legalize_signatures func).encodings ++
                List.replicate (env.legalize_signatures func).dfg_data.length
                  none).take (env.legalize_signatures func).dfg_data.length },
            cfg, .Nowhere, .Nowhere⟩ := by
        refine ⟨rfl, ?_, ?_⟩
        · exact nodup_of_layout_eq (env.legalize_signatures func) _ rfl hnodup
        · intro j hj
          simp [scanned] at hj
      have := legalize_loop_inv env hc fuel _ sfin hInv0 hloop
      rw [hf] at this
      exact this

/-- Is the instruction in the final layout of a completed run? -/
def DriverOutcome.hasInst : DriverOutcome → Inst → Bool
  | .ok f _, i => decide (i ∈ layoutInsts f)
  | _, _ => false

/-- Counterexample for C1 as stated: with a target for which every verdict
is illegal and the carried action is a no-op reporting no change,
`legalize_function` completes, instruction 0 sits in the final layout, yet
no encoding is recorded for it and the target still judges it illegal — the
driver advances past an illegal instruction whose action reports no
change. -/
theorem legalize_function_postcondition_counterexample :
    (legalize_function envIllegalNoChange 20 sampleFunc2 sampleCfg).isOk
      = true ∧
    (legalize_function envIllegalNoChange 20 sampleFunc2 sampleCfg).hasInst 0
      = true ∧
    (legalize_function envIllegalNoChange 20 sampleFunc2 sampleCfg).encodingAt 0
      = none ∧
    (envIllegalNoChange.encode (dataAt sampleFunc2 0)).isErr = true := by
  exact ⟨rfl, by decide, rfl, rfl⟩

/-- Witness for the amended C1: the always-legal target satisfies the
collaborator contracts, the run completes on `sampleFunc2`, and instruction
0 of the final function carries its recorded, still-legal encoding. -/
theorem legalize_function_encodes_all_witness :
    ∃ enc,
      encAt ⟨sampleFunc2.dfg_data, 1, sampleFunc2.layout,
        [some 5, some 5, some 5]⟩ 0 = some enc ∧
      envAllLegal.encode (dataAt ⟨sampleFunc2.dfg_data, 1, sampleFunc2.layout,
        [some 5, some 5, some 5]⟩ 0) = .ok enc :=
  legalize_function_encodes_all envAllLegal 20 sampleFunc2 sampleCfg
    ⟨sampleFunc2.dfg_data, 1, sampleFunc2.layout, [some 5, some 5, some 5]⟩
    sampleCfg
    ⟨(fun _ a h => nomatch h), (fun _ a h => nomatch h),
      (fun _ _ _ => ⟨fun _ => rfl, fun h => Bool.noConfusion h⟩),
      (fun _ _ _ => ⟨fun _ => rfl, fun h => Bool.noConfusion h⟩),
      (fun _ _ _ _ => rfl)⟩
    ⟨by decide, by decide⟩ rfl 0 (by decide)

/-! ## A termination measure for the driver loop -/

/-- The cost of a run of blocks: one per block plus one per instruction. -/
def costBlocks (bs : List (Ebb × List Inst)) : Nat :=
  bs.foldr (fun b acc => b.2.length + 1 + acc) 0

/-- What remains in front of the cursor, in loop ticks: instructions and
block boundaries still to be visited, with small penalties for the detached
and dangling positions so that every tick strictly shrinks it. -/
def measC (f : Function) : CursorPosition → Nat
  | .Nowhere => costBlocks f.layout + 1
  | .Before e =>
    match ebbIndex f e with
    | some k => costBlocks (f.layout.drop k)
    | none => costBlocks f.layout + 2
  | .At j =>
    match findInstBlock f j with
    | some (e, tl) =>
      tl.length + 1 +
        (match ebbIndex f e with
          | some k => costBlocks (f.layout.drop (k + 1))
          | none => 0)
    | none => costBlocks f.layout + 2
  | .After e =>
    match ebbIndex f e with
    | some k => costBlocks (f.layout.drop (k + 1)) + 1
    | none => costBlocks f.layout + 2

/-- `findInstBlock` only reads the layout. -/
theorem findInstBlock_congr (f f' : Function) (j : Inst)
    (h : f'.layout = f.layout) : findInstBlock f' j = findInstBlock f j := by
  unfold findInstBlock
  rw [h]

/-- `ebbIndex` only reads the layout. -/
theorem ebbIndex_congr (f f' : Function) (e : Ebb) (h : f'.layout = f.layout) :
    ebbIndex f' e = ebbIndex f e := by
  unfold ebbIndex
  rw [h]

/-- The measure only reads the layout. -/
theorem measC_congr (f f' : Function) (h : f'.layout = f.layout)
    (p : CursorPosition) : measC f' p = measC f p := by
  cases p with
  | Nowhere => simp [measC, h]
  | Before e => rw [measC, measC, ebbIndex_congr f f' e h, h]
  | After e => rw [measC, measC, ebbIndex_congr f f' e h, h]
  | At j =>
    rw [measC, measC, findInstBlock_congr f f' j h]
    cases findInstBlock f j with
    | none => rw [h]
    | some bl =>
      obtain ⟨e2, tl⟩ := bl
      dsimp only
      rw [ebbIndex_congr f f' e2 h, h]

/-- `ebbIndex` under a decomposition with an `e`-free prefix. -/
theorem ebbIndex_eq_of_decomp (f : Function) (e : Ebb) (il : List Inst)
    (L1 L2 : List (Ebb × List Inst))
    (hlay : f.layout = L1 ++ (e, il) :: L2)
    (hL1 : ∀ bl ∈ L1, bl.1 ≠ e) : ebbIndex f e = some L1.length := by
  rw [ebbIndex, hlay]
  exact findIdx?_eq_of_decomp (e, il) L2 (by simp) L1 (by
    intro y hy
    simpa using hL1 y hy)

/-- Dropping past a decomposed prefix and its head block. -/
theorem drop_succ_append {α : Type} (L1 : List α) (x : α) (L2 : List α) :
    List.drop (L1.length + 1) (L1 ++ x :: L2) = L2 := by
  have h : L1 ++ x :: L2 = (L1 ++ [x]) ++ L2 := by simp
  have h2 : L1.length + 1 = (L1 ++ [x]).length := by simp
  rw [h, h2, List.drop_left]

/-- `costBlocks` of a cons. -/
theorem costBlocks_cons (e : Ebb) (il : List Inst)
    (rest : List (Ebb × List Inst)) :
    costBlocks ((e, il) :: rest) = il.length + 1 + costBlocks rest := rfl

/-- Fetching an instruction strictly shrinks the measure. -/
theorem fetch_meas_dec (f : Function) (p : CursorPosition) (i : Inst)
    (hnodup : NodupLayout f) (h : next_inst f p = (some i, .At i)) :
    measC f (.At i) < measC f p := by
  obtain ⟨hids, hinsts⟩ := hnodup
  cases p with
  | Nowhere => simp [next_inst] at h
  | After e => simp [next_inst] at h
  | Before e =>
    simp only [next_inst] at h
    cases hf : f.layout.find? (fun bl => bl.1 = e) with
    | none => rw [hf] at h; simp at h
    | some bl =>
      obtain ⟨e', il⟩ := bl
      rw [hf] at h
      cases il with
      | nil => simp at h
      | cons i0 rest =>
        obtain hi : i0 = i := by simpa using congrArg Prod.fst h
        subst hi
        obtain ⟨L1, L2, hlay, hfails, hpred⟩ :=
          find?_inv f.layout (e', i0 :: rest) hf
        have he : e' = e := by simpa using hpred
        subst he
        have hne : ∀ x ∈ L1, x.1 ≠ e' := by
          intro x hx
          have := hfails x hx
          simpa using this
        have hidx := ebbIndex_eq_of_decomp f e' (i0 :: rest) L1 L2 hlay hne
        obtain ⟨hfree1, hfree2⟩ := nodup_inst_not_before f L1 L2 e' [] i0 rest
          (by simpa using hlay) hinsts
        have hfib := findInstBlock_eq f i0 L1 L2 e' [] rest
          (by simpa using hlay) hfree1 hfree2
        have hdrop1 : List.drop L1.length f.layout = (e', i0 :: rest) :: L2 := by
          rw [hlay]; exact List.drop_left L1 _
        have hdrop2 : List.drop (L1.length + 1) f.layout = L2 := by
          rw [hlay]; exact drop_succ_append L1 _ L2
        simp only [measC]
        rw [hfib]
        dsimp only
        rw [hidx]
        dsimp only
        rw [hdrop1, hdrop2, costBlocks_cons]
        exact Nat.add_lt_add_right (Nat.lt_succ_self _) _
  | At j =>
    simp only [next_inst] at h
    cases hfi : findInstBlock f j with
    | none => rw [hfi] at h; simp at h
    | some bl =>
      obtain ⟨e, tl⟩ := bl
      rw [hfi] at h
      cases tl with
      | nil => simp at h
      | cons i0 rest =>
        obtain hi : i0 = i := by simpa using congrArg Prod.fst h
        subst hi
        obtain ⟨L1, pre0, L2, hlay, hL1, hpre⟩ :=
          findInstBlock_inv f j e (i0 :: rest) hfi
        have hnm := nodup_ebb_not_before f L1 L2 e (pre0 ++ j :: i0 :: rest)
          hlay hids
        have hne : ∀ x ∈ L1, x.1 ≠ e := by
          intro x hx hxe
          exact hnm (by rw [← hxe]; exact List.mem_map_of_mem _ hx)
        have hidx := ebbIndex_eq_of_decomp f e (pre0 ++ j :: i0 :: rest) L1 L2
          hlay hne
        obtain ⟨hfree1, hfree2⟩ := nodup_inst_not_before f L1 L2 e
          (pre0 ++ [j]) i0 rest (by simpa using hlay) hinsts
        have hfib := findInstBlock_eq f i0 L1 L2 e (pre0 ++ [j]) rest
          (by simpa using hlay) hfree1 hfree2
        have hdrop2 : List.drop (L1.length + 1) f.layout = L2 := by
          rw [hlay]; exact drop_succ_append L1 _ L2
        simp only [measC]
        rw [hfi, hfib]
        dsimp only
        rw [hidx]
        dsimp only
        rw [hdrop2, List.length_cons]
        exact Nat.add_lt_add_right (Nat.lt_succ_self _) _

/-- Stepping the outer loop from the bottom of a block strictly shrinks the
measure. -/
theorem next_ebb_after_meas (f : Function) (e : Ebb) (e2 : Ebb)
    (pos2 : CursorPosition) (hids : (f.layout.map Prod.fst).Nodup)
    (h2 : next_ebb f (.After e) = (some e2, pos2)) :
    measC f pos2 < measC f (.After e) := by
  simp only [next_ebb, current_ebb] at h2
  cases hidx : ebbIndex f e with
  | none =>
    rw [hidx] at h2
    cases hlay : f.layout with
    | nil => rw [hlay] at h2; simp at h2
    | cons bl rest =>
      obtain ⟨e0, il0⟩ := bl
      rw [hlay] at h2
      obtain hpos : CursorPosition.Before e0 = pos2 := by simpa using congrArg Prod.snd h2
      subst hpos
      have hidx0 : ebbIndex f e0 = some 0 := by
        rw [ebbIndex, hlay]
        simp [List.findIdx?_cons]
      rw [measC, measC, hidx, hidx0]
      dsimp only
      rw [List.drop_zero, hlay]
      exact Nat.lt_succ_of_lt (Nat.lt_succ_self _)
  | some k =>
    rw [hidx] at h2
    dsimp only at h2
    obtain ⟨L1, bl, L2, hlay, hlen, hpred, hfails⟩ := findIdx?_inv f.layout k hidx
    obtain ⟨be, il⟩ := bl
    have hbe : be = e := by simpa using hpred
    subst hbe
    cases hget : f.layout.get? (k + 1) with
    | none => rw [hget] at h2; simp at h2
    | some bl2 =>
      obtain ⟨e2', il2⟩ := bl2
      rw [hget] at h2
      obtain hpos : CursorPosition.Before e2' = pos2 := by simpa using congrArg Prod.snd h2
      subst hpos
      rw [hlay, ← hlen, get?_append_succ] at hget
      cases hL2 : L2 with
      | nil => rw [hL2] at hget; simp at hget
      | cons bl3 L2b =>
        rw [hL2] at hget
        obtain hbl3 : bl3 = (e2', il2) := by simpa using hget
        subst hbl3
        have hlay2 : f.layout = (L1 ++ [(be, il)]) ++ (e2', il2) :: L2b := by
          rw [hlay, hL2]; simp
        have hnm := nodup_ebb_not_before f (L1 ++ [(be, il)]) L2b e2' il2 hlay2
          hids
        have hne2 : ∀ x ∈ L1 ++ [(be, il)], x.1 ≠ e2' := by
          intro x hx hxe
          exact hnm (by rw [← hxe]; exact List.mem_map_of_mem _ hx)
        have hidx2 : ebbIndex f e2' = some (k + 1) := by
          have := ebbIndex_eq_of_decomp f e2' il2 (L1 ++ [(be, il)]) L2b hlay2
            hne2
          simpa [← hlen] using this
        rw [measC, measC, hidx, hidx2]
        dsimp only
        exact Nat.lt_succ_self _

/-- Stepping the outer loop from the detached position strictly shrinks the
measure. -/
theorem next_ebb_nowhere_meas (f : Function) (e0 : Ebb)
    (pos2 : CursorPosition)
    (h2 : next_ebb f .Nowhere = (some e0, pos2)) :
    measC f pos2 < measC f .Nowhere := by
  simp only [next_ebb, current_ebb] at h2
  cases hlay : f.layout with
  | nil => rw [hlay] at h2; simp at h2
  | cons bl rest =>
    obtain ⟨e1, il1⟩ := bl
    rw [hlay] at h2
    obtain hpos : CursorPosition.Before e1 = pos2 := by simpa using congrArg Prod.snd h2
    subst hpos
    have hidx0 : ebbIndex f e1 = some 0 := by
      rw [ebbIndex, hlay]
      simp [List.findIdx?_cons]
    rw [measC, measC, hidx0]
    dsimp only
    rw [List.drop_zero]
    exact Nat.lt_succ_self _

/-- A block identity `find?` misses has no index. -/
theorem ebbIndex_none (f : Function) (e : Ebb)
    (hf : f.layout.find? (fun bl => bl.1 = e) = none) : ebbIndex f e = none := by
  rw [ebbIndex, List.findIdx?_eq_none_iff]
  intro x hx
  have := List.find?_eq_none.mp hf x hx
  simpa using this

/-- A failed fetch leaves the cursor at the bottom of a block or detached. -/
theorem next_inst_none_shape (f : Function) (p pos1 : CursorPosition)
    (h : next_inst f p = (none, pos1)) :
    (∃ e, pos1 = .After e) ∨ pos1 = .Nowhere := by
  cases p with
  | Nowhere =>
    have hp : CursorPosition.Nowhere = pos1 := by
      simpa [next_inst] using congrArg Prod.snd h
    exact .inr hp.symm
  | After e =>
    have hp : CursorPosition.After e = pos1 := by
      simpa [next_inst] using congrArg Prod.snd h
    exact .inl ⟨e, hp.symm⟩
  | Before e =>
    simp only [next_inst] at h
    cases hf : f.layout.find? (fun bl => bl.1 = e) with
    | none =>
      rw [hf] at h
      have hp : CursorPosition.After e = pos1 := by
        simpa using congrArg Prod.snd h
      exact .inl ⟨e, hp.symm⟩
    | some bl =>
      obtain ⟨e', il⟩ := bl
      rw [hf] at h
      cases il with
      | nil =>
        have hp : CursorPosition.After e = pos1 := by
          simpa using congrArg Prod.snd h
        exact .inl ⟨e, hp.symm⟩
      | cons i0 rest => exact absurd (congrArg Prod.fst h) (by simp)
  | At j =>
    simp only [next_inst] at h
    cases hfi : findInstBlock f j with
    | none =>
      rw [hfi] at h
      have hp : CursorPosition.Nowhere = pos1 := by
        simpa using congrArg Prod.snd h
      exact .inr hp.symm
    | some bl =>
      obtain ⟨e, tl⟩ := bl
      rw [hfi] at h
      cases tl with
      | nil =>
        have hp : CursorPosition.After e = pos1 := by
          simpa using congrArg Prod.snd h
        exact .inl ⟨e, hp.symm⟩
      | cons i0 rest => exact absurd (congrArg Prod.fst h) (by simp)

/-- A failed fetch does not grow the measure. -/
theorem next_inst_none_meas (f : Function) (p pos1 : CursorPosition)
    (hnodup : NodupLayout f) (h : next_inst f p = (none, pos1)) :
    measC f pos1 ≤ measC f p := by
  obtain ⟨hids, hinsts⟩ := hnodup
  cases p with
  | Nowhere =>
    obtain hpos : CursorPosition.Nowhere = pos1 := by
      simpa [next_inst] using congrArg Prod.snd h
    subst hpos
    exact Nat.le_refl _
  | After e =>
    obtain hpos : CursorPosition.After e = pos1 := by
      simpa [next_inst] using congrArg Prod.snd h
    subst hpos
    exact Nat.le_refl _
  | Before e =>
    simp only [next_inst] at h
    cases hf : f.layout.find? (fun bl => bl.1 = e) with
    | none =>
      rw [hf] at h
      obtain hpos : CursorPosition.After e = pos1 := by
        simpa using congrArg Prod.snd h
      subst hpos
      have hmiss := ebbIndex_none f e hf
      simp [measC, hmiss]
    | some bl =>
      obtain ⟨e', il⟩ := bl
      rw [hf] at h
      cases il with
      | cons i0 rest => exact absurd (congrArg Prod.fst h) (by simp)
      | nil =>
        obtain hpos : CursorPosition.After e = pos1 := by
          simpa using congrArg Prod.snd h
        subst hpos
        obtain ⟨L1, L2, hlay, hfails, hpred⟩ := find?_inv f.layout (e', []) hf
        have he : e' = e := by simpa using hpred
        subst he
        have hne : ∀ x ∈ L1, x.1 ≠ e' := by
          intro x hx
          have := hfails x hx
          simpa using this
        have hidx := ebbIndex_eq_of_decomp f e' [] L1 L2 hlay hne
        have hdrop1 : List.drop L1.length f.layout = (e', []) :: L2 := by
          rw [hlay]; exact List.drop_left L1 _
        have hdrop2 : List.drop (L1.length + 1) f.layout = L2 := by
          rw [hlay]; exact drop_succ_append L1 _ L2
        rw [measC, measC, hidx]
        dsimp only
        rw [hdrop1, hdrop2, costBlocks_cons]
        simp [Nat.add_comm]
  | At j =>
    simp only [next_inst] at h
    cases hfi : findInstBlock f j with
    | none =>
      rw [hfi] at h
      obtain hpos : CursorPosition.Nowhere = pos1 := by
        simpa using congrArg Prod.snd h
      subst hpos
      rw [measC, measC, hfi]
      exact Nat.le_succ_of_le (Nat.le_refl _)
    | some bl =>
      obtain ⟨e, tl⟩ := bl
      rw [hfi] at h
      cases tl with
      | cons i0 rest => exact absurd (congrArg Prod.fst h) (by simp)
      | nil =>
        obtain hpos : CursorPosition.After e = pos1 := by
          simpa using congrArg Prod.snd h
        subst hpos
        obtain ⟨L1, pre0, L2, hlay, hL1, hpre⟩ := findInstBlock_inv f j e [] hfi
        have hnm := nodup_ebb_not_before f L1 L2 e (pre0 ++ j :: []) hlay hids
        have hne : ∀ x ∈ L1, x.1 ≠ e := by
          intro x hx hxe
          exact hnm (by rw [← hxe]; exact List.mem_map_of_mem _ hx)
        have hidx := ebbIndex_eq_of_decomp f e (pre0 ++ j :: []) L1 L2 hlay hne
        rw [measC, measC, hfi]
        dsimp only
        rw [hidx]
        dsimp only
        simp [Nat.add_comm]

/-- A block transition of the driver (failed fetch followed by a successful
`next_ebb`) strictly shrinks the measure. -/
theorem ebb_meas_dec (f : Function) (p pos1 : CursorPosition) (e2 : Ebb)
    (pos2 : CursorPosition) (hnodup : NodupLayout f)
    (h1 : next_inst f p = (none, pos1))
    (h2 : next_ebb f pos1 = (some e2, pos2)) :
    measC f pos2 < measC f p := by
  have hle := next_inst_none_meas f p pos1 hnodup h1
  rcases next_inst_none_shape f p pos1 h1 with ⟨e, hp⟩ | hp
  · subst hp
    exact Nat.lt_of_lt_of_le (next_ebb_after_meas f e e2 pos2 hnodup.1 h2) hle
  · subst hp
    exact Nat.lt_of_lt_of_le (next_ebb_nowhere_meas f e2 pos2 h2) hle

/-- The termination contract on the collaborators: every mutator either
reports a change and strictly reduces the measure `μ` (keeping identities
unique), or reports no change and leaves the function untouched; the branch
simplifier and the encoding recorder do not affect `μ`. -/
structure MeasuredEnv (env : LegalizeEnv) (μ : Function → Nat) : Prop where
  act_dec : ∀ d a, env.encode d = .err a → ∀ i f c,
    ((a i f c).1 = true → μ (a i f c).2.1 < μ f ∧
      (NodupLayout f → NodupLayout (a i f c).2.1)) ∧
    ((a i f c).1 = false → (a i f c).2.1 = f)
  call_dec : ∀ i f c,
    ((env.handle_call_abi i f c).1 = true →
      μ (env.handle_call_abi i f c).2.1 < μ f ∧
      (NodupLayout f → NodupLayout (env.handle_call_abi i f c).2.1)) ∧
    ((env.handle_call_abi i f c).1 = false →
      (env.handle_call_abi i f c).2.1 = f)
  ret_dec : ∀ i f c,
    ((env.handle_return_abi i f c).1 = true →
      μ (env.handle_return_abi i f c).2.1 < μ f ∧
      (NodupLayout f → NodupLayout (env.handle_return_abi i f c).2.1)) ∧
    ((env.handle_return_abi i f c).1 = false →
      (env.handle_return_abi i f c).2.1 = f)
  simp_mu : ∀ f i,
    μ { f with dfg_data := env.simplify_branch_arguments f.dfg_data i } = μ f
  enc_mu : ∀ f i e2, μ (setEnc f i e2) = μ f

/-- One driver iteration either strictly reduces `μ` or leaves the layout,
`μ` and the cursor position unchanged; identities stay unique. -/
theorem driver_step_c6 (env : LegalizeEnv) (μ : Function → Nat)
    (hm : MeasuredEnv env μ) (s : DriverState) (inst : Inst)
    (hnodup : NodupLayout s.func) :
    NodupLayout (driver_step env s inst).func ∧
    (μ (driver_step env s inst).func < μ s.func ∨
      ((driver_step env s inst).func.layout = s.func.layout ∧
        μ (driver_step env s inst).func = μ s.func ∧
        (driver_step env s inst).pos = s.pos)) := by
  have henc : ∀ (s1 : DriverState) (op : Opcode), s1.func.layout = s.func.layout →
      μ s1.func = μ s.func → s1.pos = s.pos → NodupLayout s1.func →
      NodupLayout (encodeStage env s1 inst op).func ∧
      (μ (encodeStage env s1 inst op).func < μ s.func ∨
        ((encodeStage env s1 inst op).func.layout = s.func.layout ∧
          μ (encodeStage env s1 inst op).func = μ s.func ∧
          (encodeStage env s1 inst op).pos = s.pos)) := by
    intro s1 op hl hmu hp hn
    obtain ⟨fS, hbs, hSlay, hSenc, hSmu, hSdfg⟩ :
        ∃ fS, branchSimplified env s1 inst op =
            ⟨fS, s1.cfg, s1.pos, s1.prev_pos⟩ ∧ fS.layout = s1.func.layout ∧
          fS.encodings = s1.func.encodings ∧ μ fS = μ s1.func ∧
          NodupLayout fS := by
      by_cases hbr : op.is_branch = true
      · refine ⟨{ s1.func with
          dfg_data := env.simplify_branch_arguments s1.func.dfg_data inst },
          ?_, rfl, rfl, hm.simp_mu s1.func inst, ?_⟩
        · unfold branchSimplified
          rw [if_pos hbr]
        · exact nodup_of_layout_eq s1.func _ rfl hn
      · refine ⟨s1.func, ?_, rfl, rfl, rfl, hn⟩
        unfold branchSimplified
        rw [if_neg hbr]
    simp only [encodeStage, hbs]
    cases hv : env.encode (dataAt fS inst) with
    | ok enc =>
      dsimp only
      refine ⟨?_, .inr ⟨?_, ?_, hp⟩⟩
      · exact nodup_of_layout_eq fS _ (setEnc_fields fS inst enc).1 hSdfg
      · rw [(setEnc_fields fS inst enc).1, hSlay, hl]
      · rw [hm.enc_mu fS inst enc, hSmu, hmu]
    | err a =>
      dsimp only
      have hd := hm.act_dec _ a hv inst fS s1.cfg
      rcases hact : a inst fS s1.cfg with ⟨b2, f3, c3⟩
      rw [hact] at hd
      cases b2 with
      | true =>
        obtain ⟨hlt, hnod⟩ := hd.1 rfl
        refine ⟨hnod (nodup_of_layout_eq s1.func fS hSlay hn), .inl ?_⟩
        calc μ f3 < μ fS := hlt
          _ = μ s.func := by rw [hSmu, hmu]
      | false =>
        have hf3 : f3 = fS := hd.2 rfl
        subst hf3
        refine ⟨nodup_of_layout_eq s1.func f3 hSlay hn, .inr ⟨?_, ?_, hp⟩⟩
        · rw [hSlay, hl]
        · rw [hSmu, hmu]
  have hret : ∀ (s1 : DriverState) (op : Opcode), s1.func.layout = s.func.layout →
      μ s1.func = μ s.func → s1.pos = s.pos → NodupLayout s1.func →
      NodupLayout (returnStage env s1 inst op).func ∧
      (μ (returnStage env s1 inst op).func < μ s.func ∨
        ((returnStage env s1 inst op).func.layout = s.func.layout ∧
          μ (returnStage env s1 inst op).func = μ s.func ∧
          (returnStage env s1 inst op).pos = s.pos)) := by
    intro s1 op hl hmu hp hn
    simp only [returnStage]
    by_cases hrop : op.is_return = true
    · rw [if_pos hrop]
      have hd := hm.ret_dec inst s1.func s1.cfg
      rcases hout : env.handle_return_abi inst s1.func s1.cfg with ⟨b, f2, c2⟩
      rw [hout] at hd
      cases b with
      | true =>
        obtain ⟨hlt, hnod⟩ := hd.1 rfl
        exact ⟨hnod hn, .inl (by calc μ f2 < μ s1.func := hlt
          _ = μ s.func := hmu)⟩
      | false =>
        have hf2 : f2 = s1.func := hd.2 rfl
        subst hf2
        exact henc ⟨s1.func, c2, s1.pos, s1.prev_pos⟩ op hl hmu hp hn
    · rw [if_neg hrop]
      exact henc s1 op hl hmu hp hn
  simp only [driver_step]
  by_cases hcop : (dataAt s.func inst).opcode.is_call = true
  · rw [if_pos hcop]
    have hd := hm.call_dec inst s.func s.cfg
    rcases hout : env.handle_call_abi inst s.func s.cfg with ⟨b, f2, c2⟩
    rw [hout] at hd
    cases b with
    | true =>
      obtain ⟨hlt, hnod⟩ := hd.1 rfl
      exact ⟨hnod hnodup, .inl hlt⟩
    | false =>
      have hf2 : f2 = s.func := hd.2 rfl
      subst hf2
      exact hret ⟨s.func, c2, s.pos, s.prev_pos⟩ _ rfl rfl rfl hnodup
  · rw [if_neg hcop]
    exact hret s _ rfl rfl rfl hnodup

/-- Under the measured contract, some fuel completes the driver loop from
every state whose layout carries unique identities: lexicographic descent on
the function measure `μ` and the cursor measure `measC`. -/
theorem legalize_loop_term (env : LegalizeEnv) (μ : Function → Nat)
    (hm : MeasuredEnv env μ) (s : DriverState) (hn : NodupLayout s.func) :
    ∃ n, (legalize_loop env n s).isSome = true := by
  have main : ∀ M K : Nat, ∀ t : DriverState, NodupLayout t.func →
      μ t.func < M → measC t.func t.pos < K →
      ∃ n, (legalize_loop env n t).isSome = true := by
    intro M
    induction M with
    | zero => intro K t _ hM _; exact absurd hM (Nat.not_lt_zero _)
    | succ M ihM =>
      intro K
      induction K with
      | zero => intro t _ _ hK; exact absurd hK (Nat.not_lt_zero _)
      | succ K ihK =>
        intro t hnt hM hK
        rcases hni : next_inst t.func t.pos with ⟨oi, pos1⟩
        cases oi with
        | some inst =>
          have hAt : pos1 = .At inst := (fetch_spec t.func t.pos inst pos1 hni).1
          subst hAt
          obtain ⟨hn2, hcase⟩ :=
            driver_step_c6 env μ hm { t with pos := .At inst } inst hnt
          rcases hcase with hlt | ⟨hlay, hmu, hpos⟩
          · obtain ⟨n, hsome⟩ := ihM
              (measC (driver_step env { t with pos := .At inst } inst).func
                (driver_step env { t with pos := .At inst } inst).pos + 1)
              (driver_step env { t with pos := .At inst } inst) hn2
              (Nat.lt_of_lt_of_le hlt (Nat.lt_succ_iff.mp hM))
              (Nat.lt_succ_self _)
            refine ⟨n + 1, ?_⟩
            simp only [legalize_loop]
            rw [hni]
            exact hsome
          · dsimp only at hlay hmu hpos
            have hmeas : measC (driver_step env { t with pos := .At inst } inst).func
                (driver_step env { t with pos := .At inst } inst).pos < K := by
              rw [hpos, measC_congr t.func _ hlay]
              exact Nat.lt_of_lt_of_le (fetch_meas_dec t.func t.pos inst hnt hni)
                (Nat.lt_succ_iff.mp hK)
            obtain ⟨n, hsome⟩ := ihK
              (driver_step env { t with pos := .At inst } inst) hn2
              (by rw [hmu]; exact hM) hmeas
            refine ⟨n + 1, ?_⟩
            simp only [legalize_loop]
            rw [hni]
            exact hsome
        | none =>
          rcases hne : next_ebb t.func pos1 with ⟨oe, pos2⟩
          cases oe with
          | some e2 =>
            have hmeas : measC t.func pos2 < measC t.func t.pos :=
              ebb_meas_dec t.func t.pos pos1 e2 pos2 hnt hni hne
            obtain ⟨n, hsome⟩ :=
              ihK { t with pos := pos2, prev_pos := pos2 } hnt hM
                (Nat.lt_of_lt_of_le hmeas (Nat.lt_succ_iff.mp hK))
            refine ⟨n + 1, ?_⟩
            simp only [legalize_loop]
            rw [hni]
            dsimp only
            rw [hne]
            exact hsome
          | none =>
            refine ⟨1, ?_⟩
            simp only [legalize_loop]
            rw [hni]
            dsimp only
            rw [hne]
            rfl
  exact main (μ s.func + 1) (measC s.func s.pos + 1) s hn
    (Nat.lt_succ_self _) (Nat.lt_succ_self _)

/-- When the assertion does not fire, `legalize_function` is the driver loop
run on the signature-legalized function with the encodings map resized. -/
theorem legalize_function_eq_loop (env : LegalizeEnv) (fuel : Nat)
    (func : Function) (cfg : ControlFlowGraph)
    (hab : (env.debug_assertions && !(env.cfg_is_valid cfg func)) = false) :
    legalize_function env fuel func cfg =
      match legalize_loop env fuel
        ⟨{ env.legalize_signatures func with
            encodings := ((env.legalize_signatures func).encodings ++
              List.replicate (env.legalize_signatures func).dfg_data.length
                none).take (env.legalize_signatures func).dfg_data.length },
          cfg, .Nowhere, .Nowhere⟩ with
      | some s => DriverOutcome.ok s.func s.cfg
      | none => DriverOutcome.fuel_out := by
  unfold legalize_function
  rw [hab]
  rfl

/-- A function whose single block holds a single call instruction. -/
def fCall : Function :=
  { dfg_data := [.MultiAry .Call []]
    num_ebbs := 1
    layout := [(0, [0])]
    encodings := [none] }

/-- A target on which every instruction is legal (so no legalization action
is ever returned), but whose call boundary handler always reports a change
without mutating the function: the driver rewinds forever. -/
def envDivergent : LegalizeEnv :=
  { envAllLegal with handle_call_abi := fun _ f c => (true, f, c) }

theorem loop_divergent_aux : ∀ n,
    legalize_loop envDivergent n ⟨fCall, sampleCfg, .Before 0, .Before 0⟩ =
      none := by
  intro n
  induction n with
  | zero => rfl
  | succ n ih =>
    have hstep : legalize_loop envDivergent (n + 1)
        ⟨fCall, sampleCfg, .Before 0, .Before 0⟩ =
        legalize_loop envDivergent n ⟨fCall, sampleCfg, .Before 0, .Before 0⟩ :=
      rfl
    rw [hstep]
    exact ih

theorem loop_divergent_aux2 : ∀ n,
    legalize_loop envDivergent n ⟨fCall, sampleCfg, .Nowhere, .Nowhere⟩ =
      none := by
  intro n
  cases n with
  | zero => rfl
  | succ n =>
    have hstep : legalize_loop envDivergent (n + 1)
        ⟨fCall, sampleCfg, .Nowhere, .Nowhere⟩ =
        legalize_loop envDivergent n ⟨fCall, sampleCfg, .Before 0, .Before 0⟩ :=
      rfl
    rw [hstep]
    exact loop_divergent_aux n

/-- C6, corrected: the claim's hypothesis constrains only the legalization
actions returned by the target's legality check, but the driver's rewind is
also triggered by the ABI boundary handlers. `envDivergent` satisfies the
hypothesis vacuously (no instruction is ever judged illegal, so no action is
ever returned), yet its call handler always reports a change, and the loop
never completes on a function holding one call: no fuel suffices. -/
theorem legalize_function_termination_counterexample :
    (∀ d a, envDivergent.encode d = .err a →
      ∀ i f c, (a i f c).1 = true →
        ∃ μ : Function → Nat, μ (a i f c).2.1 < μ f) ∧
    (∀ fuel, legalize_function envDivergent fuel fCall sampleCfg =
      .fuel_out) := by
  constructor
  · intro d a h
    exact absurd h (by simp [envDivergent, envAllLegal])
  · intro fuel
    rw [legalize_function_eq_loop envDivergent fuel fCall sampleCfg rfl]
    have hfn : ({ envDivergent.legalize_signatures fCall with
        encodings := ((envDivergent.legalize_signatures fCall).encodings ++
          List.replicate
            (envDivergent.legalize_signatures fCall).dfg_data.length
            none).take
          (envDivergent.legalize_signatures fCall).dfg_data.length } :
        Function) = fCall := rfl
    rw [hfn, loop_divergent_aux2 fuel]

/-- C6: under the hypothesis that every mutating collaborator — the
legalization actions carried by illegal verdicts and also the ABI boundary
handlers — either reports a change and strictly reduces a measure `μ` on
the function (preserving unique identities), or reports no change and
leaves the function untouched, while branch simplification and encoding
recording leave `μ` unchanged, the driver loop of `legalize_function`
terminates: some fuel makes the run complete (never `fuel_out`), provided
the signature-legalized input has unique identities in its layout. -/
theorem legalize_function_terminates (env : LegalizeEnv) (μ : Function → Nat)
    (hm : MeasuredEnv env μ) (func : Function) (cfg : ControlFlowGraph)
    (hn : NodupLayout (env.legalize_signatures func)) :
    ∃ fuel, legalize_function env fuel func cfg ≠ .fuel_out := by
  by_cases hab : (env.debug_assertions && !(env.cfg_is_valid cfg func)) = true
  · refine ⟨0, ?_⟩
    unfold legalize_function
    rw [if_pos hab]
    intro h
    exact DriverOutcome.noConfusion h
  · have hab' : (env.debug_assertions && !(env.cfg_is_valid cfg func)) =
        false := Bool.eq_false_iff.mpr hab
    obtain ⟨n, hsome⟩ := legalize_loop_term env μ hm
      ⟨{ env.legalize_signatures func with
          encodings := ((env.legalize_signatures func).encodings ++
            List.replicate (env.legalize_signatures func).dfg_data.length
              none).take (env.legalize_signatures func).dfg_data.length },
        cfg, .Nowhere, .Nowhere⟩
      (nodup_of_layout_eq _ _ rfl hn)
    refine ⟨n, ?_⟩
    rw [legalize_function_eq_loop env n func cfg hab']
    obtain ⟨s2, hs2⟩ := Option.isSome_iff_exists.mp hsome
    rw [hs2]
    intro h
    exact DriverOutcome.noConfusion h

theorem measuredEnvAllLegal : MeasuredEnv envAllLegal (fun _ => 0) := by
  refine ⟨?_, ?_, ?_, ?_, ?_⟩
  · intro d a h
    exact absurd h (by simp [envAllLegal])
  · intro i f c
    constructor
    · intro h
      exact absurd h (by simp [envAllLegal, idHandler])
    · intro _
      rfl
  · intro i f c
    constructor
    · intro h
      exact absurd h (by simp [envAllLegal, idHandler])
    · intro _
      rfl
  · intro f i
    rfl
  · intro f i e2
    rfl

/-- Witness for C6 at a concrete target and function: the all-legal target
with the constant measure satisfies the contract, and the run on
`sampleFunc2` completes with some fuel. -/
theorem legalize_function_terminates_witness :
    ∃ fuel, legalize_function envAllLegal fuel sampleFunc2 sampleCfg ≠
      .fuel_out :=
  legalize_function_terminates envAllLegal (fun _ => 0) measuredEnvAllLegal
    sampleFunc2 sampleCfg (by constructor <;> decide)
